import Mathlib

/-!
Shallow embedding of the JSTool family-tree core: the Person (Ancestor) data
model, the eligibility resolver (`isAncestorOf`, `getEligibleParents`,
`getEligibleChildren`), the relationship synchronizer
(`updateBidirectionalRelationships`), the delete reducer, the import
boundary, and the generation-bucketed layout engine, together with theorems
settling the frozen claims about them.

JavaScript idioms are modelled explicitly: optional fields become `Option`,
`x || []` becomes `Option.getD _ []`, JS numeric truthiness (0 is falsy)
becomes `jsTruthyInt`, and the mutable `visited` set threaded through the
ancestor walk becomes explicit state passing with a fuel bound.
-/

/-- `PartialDate` from the source types: independently optional fields. -/
structure PartialDate where
  year : Option Int := none
  month : Option Int := none
  day : Option Int := none
deriving DecidableEq, Repr

/-- `LocationEvent` from the source types; `partnerId` only used on
marriage/divorce events. -/
structure LocationEvent where
  date : Option PartialDate := none
  country : Option String := none
  partnerId : Option String := none
deriving DecidableEq, Repr

/-- The current `Ancestor` record shape, as used by the eligibility,
layout and reducer code (`generation`, `parentIds`, event lists).
A missing JSON `id` is modelled as the empty string. -/
structure Ancestor where
  id : String
  firstName : Option String := none
  lastName : Option String := none
  generation : Int := 0
  parentIds : Option (List String) := none
  birth : Option LocationEvent := none
  marriages : Option (List LocationEvent) := none
  divorces : Option (List LocationEvent) := none
  naturalizations : Option (List LocationEvent) := none
  death : Option LocationEvent := none
  createdAt : Nat := 0
  updatedAt : Nat := 0
deriving DecidableEq, Repr

/-- `allAncestors.find(a => a.id === pid)`. -/
def findById (l : List Ancestor) (pid : String) : Option Ancestor :=
  l.find? (fun a => a.id == pid)

/-- JS numeric truthiness on an optional number: `0` and absence are falsy. -/
def jsTruthyInt : Option Int → Option Int
  | some v => if v = 0 then none else some v
  | none => none

/-- JS `a || b` over optional numbers (`0` falls through to `b`). -/
def jsOrInt (a b : Option Int) : Option Int :=
  match jsTruthyInt a with
  | some v => some v
  | none => b

/-- JS `s || d` over an optional string (`""` and absence are falsy). -/
def jsOrString (a : Option String) (d : String) : String :=
  match a with
  | some s => if s = "" then d else s
  | none => d

/-- `person.birth?.date?.year`. -/
def birthYearOf (a : Ancestor) : Option Int :=
  a.birth.bind (fun b => b.date.bind (fun d => d.year))

/-!
`isAncestorOf(potentialAncestor, person, allAncestors, visited)`:

```js
if (visited.has(person.id)) return false;
visited.add(person.id);
const parentIds = person.parentIds || [];
if (parentIds.includes(potentialAncestor.id)) return true;
for (const parentId of parentIds) {
  const parent = allAncestors.find((a) => a.id === parentId);
  if (parent && isAncestorOf(potentialAncestor, parent, allAncestors, visited))
    return true;
}
return false;
```

The JS `visited` set is mutated in place and shared across the sibling
recursive calls, so the embedding threads it through explicitly and returns
it alongside the boolean. The recursion is bounded by a fuel parameter; the
termination theorem for claim C7 shows the result is independent of the fuel
once it exceeds `2 * l.length + 2`, so the `paId` walk never actually hits
the artificial cut-off used at fuel 0.
-/
/-- The `for (const parentId of parentIds)` loop: look each parent id up,
recurse via `step` (the ancestor walk one fuel level down), short-circuit on
`true`, and thread the shared visited set through the siblings. -/
def isAncestorOfLoop (l : List Ancestor) (step : Ancestor → List String → Bool × List String) :
    List String → List String → Bool × List String
  | [], visited => (false, visited)
  | pid :: rest, visited =>
    match findById l pid with
    | none => isAncestorOfLoop l step rest visited
    | some parent =>
      match step parent visited with
      | (true, v) => (true, v)
      | (false, v) => isAncestorOfLoop l step rest v

def isAncestorOfAux (paId : String) (l : List Ancestor) :
    Nat → Ancestor → List String → Bool × List String
  | 0, _, visited => (false, visited)
  | fuel + 1, person, visited =>
    if person.id ∈ visited then (false, visited)
    else
      let visited1 := person.id :: visited
      let parentIds := person.parentIds.getD []
      if paId ∈ parentIds then (true, visited1)
      else isAncestorOfLoop l (fun parent v => isAncestorOfAux paId l fuel parent v) parentIds visited1

/-- The fuel used by `isAncestorOf`: strictly more than the measure of any
reachable call state, see `isAncestorOf_fuel_irrelevant`. -/
def ancestorFuel (l : List Ancestor) : Nat := 2 * l.length + 3

/-- `isAncestorOf(potentialAncestor, person, allAncestors)` with the default
empty visited set. -/
def isAncestorOf (potentialAncestor person : Ancestor) (l : List Ancestor) : Bool :=
  (isAncestorOfAux potentialAncestor.id l (ancestorFuel l) person []).1

/-- `isDescendantOf(potentialDescendant, person) = isAncestorOf(person, potentialDescendant)`. -/
def isDescendantOf (potentialDescendant person : Ancestor) (l : List Ancestor) : Bool :=
  isAncestorOf person potentialDescendant l

/-- `getEligibleParents(currentPerson, allAncestors, selectedChildrenIds)`. -/
def getEligibleParents (currentPerson : Option Ancestor) (allAncestors : List Ancestor)
    (selectedChildrenIds : List String) : List Ancestor :=
  if allAncestors.isEmpty then []
  else
    let currentGeneration : Int := (currentPerson.map (fun c => c.generation)).getD 0
    allAncestors.filter (fun potentialParent =>
      if currentPerson.map (fun c => c.id) = some potentialParent.id then false
      else if selectedChildrenIds.contains potentialParent.id then false
      else if potentialParent.generation < currentGeneration then false
      else
        match currentPerson with
        | some cp => !(isDescendantOf potentialParent cp allAncestors)
        | none => true)

/-- `getEligibleChildren(currentPerson, allAncestors, selectedParentIds,
marriages, divorces, birthYear)`. The `birthYear` string argument of the
source arrives here as the already-parsed optional number
(`birthYear ? parseInt(birthYear) : null`). -/
def getEligibleChildren (currentPerson : Option Ancestor) (allAncestors : List Ancestor)
    (selectedParentIds : List String) (marriages divorces : List LocationEvent)
    (birthYear : Option Int) : List Ancestor :=
  if allAncestors.isEmpty then []
  else
    let currentAncestorBirthYear : Option Int :=
      jsOrInt (currentPerson.bind birthYearOf) birthYear
    let currentGeneration : Int := (currentPerson.map (fun c => c.generation)).getD 0
    allAncestors.filter (fun potentialChild =>
      if currentPerson.map (fun c => c.id) = some potentialChild.id then false
      else if selectedParentIds.contains potentialChild.id then false
      else if marriages.any (fun m => m.partnerId = some potentialChild.id)
           || divorces.any (fun d => d.partnerId = some potentialChild.id) then false
      else if currentGeneration < potentialChild.generation then false
      else if (match currentPerson with
               | some cp => isAncestorOf potentialChild cp allAncestors
               | none => false) then false
      else
        match jsTruthyInt currentAncestorBirthYear, jsTruthyInt (birthYearOf potentialChild) with
        | some cy, some chy => decide (cy < chy)
        | _, _ => true)

/-! ## Layout engine (`FamilyTreeGraph` / `buildTreeFromRoot`) -/

/-- A positioned node of the diagram. -/
structure TreeNode where
  ancestor : Ancestor
  x : Nat
  y : Int
  generation : Int
  relationship : String
deriving DecidableEq, Repr

/-- Edge kinds of the diagram. -/
inductive ConnType where
  | parent
  | marriage
deriving DecidableEq, Repr

/-- A connection edge between two positioned nodes. -/
structure Connection where
  fromNode : TreeNode
  toNode : TreeNode
  type : ConnType
deriving DecidableEq, Repr

/-- Canvas dimensions. -/
structure Dimensions where
  width : Nat
  height : Int
deriving DecidableEq, Repr

/-- The layout engine's full output. -/
structure LayoutResult where
  nodes : List TreeNode
  connections : List Connection
  dimensions : Dimensions
deriving DecidableEq, Repr

def GENERATION_HEIGHT : Int := 180
def MIN_HORIZONTAL_SPACING : Nat := 200
def NODE_HEIGHT : Int := 80
def LAYOUT_PADDING : Nat := 100
def BASE_Y : Int := 200

/-- The Map bucket for generation `g`: members of `l` with that stored
generation, in collection order (JS `Map` groups by pushing in iteration
order). -/
def genBucket (l : List Ancestor) (g : Int) : List Ancestor :=
  l.filter (fun a => a.generation = g)

/-- The distinct generation keys of the collection. -/
def genKeys (l : List Ancestor) : List Int :=
  (l.map (fun a => a.generation)).dedup

/-- `Array.from(generations.entries()).sort((a, b) => a[0] - b[0])`:
the distinct generation keys in ascending order. -/
def sortedGenKeys (l : List Ancestor) : List Int :=
  (genKeys l).insertionSort (fun a b => a ≤ b)

/-- `Math.max(...generations.keys())` (the layout only evaluates it on a
nonempty collection; the empty case yields the `[]` branch value `0`). -/
def maxGenerationOf (l : List Ancestor) : Int :=
  match genKeys l with
  | [] => 0
  | k :: ks => ks.foldl max k

/-- Node `x` within a bucket:
`PADDING + (index + 0.5) * MIN_HORIZONTAL_SPACING` (exact, since the spacing
is even). -/
def nodeX (index : Nat) : Nat :=
  LAYOUT_PADDING + index * MIN_HORIZONTAL_SPACING + MIN_HORIZONTAL_SPACING / 2

/-- Node `y`: `BASE_Y + (maxGeneration - generation) * GENERATION_HEIGHT`. -/
def nodeY (maxGen g : Int) : Int :=
  BASE_Y + (maxGen - g) * GENERATION_HEIGHT

/-- The node built for ancestor `a` at position `index` of its generation
bucket. -/
def mkTreeNode (maxGen : Int) (index : Nat) (a : Ancestor) : TreeNode :=
  { ancestor := a
    x := nodeX index
    y := nodeY maxGen a.generation
    generation := a.generation
    relationship := jsOrString a.firstName "Person" }

/-- All positioned nodes: buckets in ascending generation order, members in
collection order, indexed left to right. -/
def layoutNodes (l : List Ancestor) : List TreeNode :=
  let maxGen := maxGenerationOf l
  (sortedGenKeys l).flatMap (fun g =>
    ((genBucket l g).enum).map (fun p => mkTreeNode maxGen p.1 p.2))

/-- `nodeMap.get(pid)`: the JS `Map` keeps the last node set under a key, so
lookup returns the last matching node. -/
def nodeMapGet (nodes : List TreeNode) (pid : String) : Option TreeNode :=
  nodes.reverse.find? (fun n => n.ancestor.id == pid)

/-- Whether an equivalent marriage edge (in either direction) is already in
the accumulated connection list. -/
def hasMarriageConn (conns : List Connection) (aId bId : String) : Bool :=
  conns.any (fun c =>
    c.type = ConnType.marriage &&
    ((c.fromNode.ancestor.id = aId && c.toNode.ancestor.id = bId) ||
     (c.fromNode.ancestor.id = bId && c.toNode.ancestor.id = aId)))

/-- The connection edges: per node, one `parent` edge per resolvable
`parentIds` entry, then de-duplicated `marriage` edges to same-generation
partners. -/
def layoutConnections (nodes : List TreeNode) : List Connection :=
  nodes.foldl (fun conns node =>
    let conns1 := conns ++
      (node.ancestor.parentIds.getD []).filterMap (fun pid =>
        (nodeMapGet nodes pid).map (fun parent =>
          { fromNode := parent, toNode := node, type := ConnType.parent }))
    (node.ancestor.marriages.getD []).foldl (fun cs m =>
      match m.partnerId with
      | none => cs
      | some pid =>
        match nodeMapGet nodes pid with
        | none => cs
        | some spouse =>
          if spouse.generation = node.generation then
            if hasMarriageConn cs node.ancestor.id spouse.ancestor.id then cs
            else cs ++ [{ fromNode := node, toNode := spouse, type := ConnType.marriage }]
          else cs) conns1) []

/-- `Math.max` over the bucket sizes (`maxNodesInGen`). -/
def maxNodesInGen (l : List Ancestor) : Nat :=
  match (genKeys l).map (fun g => (genBucket l g).length) with
  | [] => 0
  | n :: ns => ns.foldl max n

/-- Minimum node `y` (on a nonempty node list). -/
def minNodeY (nodes : List TreeNode) : Int :=
  match nodes.map (fun n => n.y) with
  | [] => 0
  | y :: ys => ys.foldl min y

/-- Maximum node `y` (on a nonempty node list). -/
def maxNodeY (nodes : List TreeNode) : Int :=
  match nodes.map (fun n => n.y) with
  | [] => 0
  | y :: ys => ys.foldl max y

/-- `buildTreeFromRoot(_root, allAncestors)`. The `_root` argument is unused
by the source, exactly as here. -/
def buildTreeFromRoot (_root : Ancestor) (allAncestors : List Ancestor) : LayoutResult :=
  let nodes := layoutNodes allAncestors
  let connections := layoutConnections nodes
  let topBound : Int := minNodeY nodes - NODE_HEIGHT / 2 - 25 - 12
  let bottomBound : Int := maxNodeY nodes + NODE_HEIGHT / 2 + 25 + 12
  { nodes := nodes
    connections := connections
    dimensions :=
      { width := maxNodesInGen allAncestors * MIN_HORIZONTAL_SPACING + 2 * LAYOUT_PADDING
        height := bottomBound - topBound + 2 * (LAYOUT_PADDING : Int) } }

/-- The `useMemo` body of `FamilyTreeGraph`: the empty collection short-cuts
to the default canvas; otherwise the root heuristic picks the oldest
parentless person (fallback: first) and delegates to `buildTreeFromRoot`. -/
def familyTreeLayout (ancestors : List Ancestor) : LayoutResult :=
  match ancestors with
  | [] => { nodes := [], connections := [], dimensions := { width := 800, height := 400 } }
  | a0 :: _ =>
    let rootCandidates := ancestors.filter (fun a => (a.parentIds.getD []).isEmpty)
    let selfPerson :=
      match rootCandidates with
      | [] => a0
      | c0 :: cs =>
        (c0 :: cs).foldl (fun oldest current =>
          if current.createdAt < oldest.createdAt then current else oldest) c0
    buildTreeFromRoot selfPerson ancestors

/-! ## Relationship synchronizer (`FamilyTreeService.updateBidirectionalRelationships`) -/

/-- `findIndex` plus in-place assignment: update the first element matching
`p`, leave the list unchanged when none matches. -/
def updateFirstWith (p : Ancestor → Bool) (f : Ancestor → Ancestor) :
    List Ancestor → List Ancestor
  | [] => []
  | a :: rest => if p a then f a :: rest else a :: updateFirstWith p f rest

/-- The marriage branch body: if the partner has no marriage event whose
`partnerId` points back at the changed person, append the reciprocal copy
and stamp `updatedAt`. -/
def addReciprocalMarriage (changedId : String) (e : LocationEvent) (now : Nat)
    (partner : Ancestor) : Ancestor :=
  let partnerMarriages := partner.marriages.getD []
  if partnerMarriages.any (fun m => m.partnerId = some changedId) then partner
  else
    { partner with
      marriages := some (partnerMarriages ++ [{ e with partnerId := some changedId }])
      updatedAt := now }

/-- The divorce branch body, symmetric to `addReciprocalMarriage`. -/
def addReciprocalDivorce (changedId : String) (e : LocationEvent) (now : Nat)
    (partner : Ancestor) : Ancestor :=
  let partnerDivorces := partner.divorces.getD []
  if partnerDivorces.any (fun d => d.partnerId = some changedId) then partner
  else
    { partner with
      divorces := some (partnerDivorces ++ [{ e with partnerId := some changedId }])
      updatedAt := now }

/-- One iteration of the marriage loop over the working array. -/
def syncMarriage (acc : List Ancestor) (changedId : String) (e : LocationEvent)
    (now : Nat) : List Ancestor :=
  match e.partnerId with
  | none => acc
  | some pid => updateFirstWith (fun a => a.id == pid) (addReciprocalMarriage changedId e now) acc

/-- One iteration of the divorce loop over the working array. -/
def syncDivorce (acc : List Ancestor) (changedId : String) (e : LocationEvent)
    (now : Nat) : List Ancestor :=
  match e.partnerId with
  | none => acc
  | some pid => updateFirstWith (fun a => a.id == pid) (addReciprocalDivorce changedId e now) acc

/-- `FamilyTreeService.updateBidirectionalRelationships(ancestors, changedAncestor)`,
with `Date.now()` passed in as `now`. -/
def updateBidirectionalRelationships (ancestors : List Ancestor)
    (changedAncestor : Ancestor) (now : Nat) : List Ancestor :=
  let afterMarriages :=
    (changedAncestor.marriages.getD []).foldl
      (fun acc m => syncMarriage acc changedAncestor.id m now) ancestors
  (changedAncestor.divorces.getD []).foldl
    (fun acc d => syncDivorce acc changedAncestor.id d now) afterMarriages

/-! ## Graph store reducer: `DELETE_ANCESTOR` -/

/-- The per-survivor cleanup of the `DELETE_ANCESTOR` reducer case: drop the
deleted id from `parentIds` (removing the field when the filter empties it),
replace present `marriages`/`divorces` arrays by partner-filtered copies, and
stamp `updatedAt` exactly when the `updates` object is nonempty — i.e. when
`parentIds` contained the id or a `marriages`/`divorces` array is present. -/
def cleanupAfterDelete (deletedId : String) (now : Nat) (a : Ancestor) : Ancestor :=
  let parentHit := (a.parentIds.getD []).contains deletedId
  let newParentIds : Option (List String) :=
    if parentHit then
      let filtered := (a.parentIds.getD []).filter (fun i => !(i == deletedId))
      if filtered.isEmpty then none else some filtered
    else a.parentIds
  let newMarriages : Option (List LocationEvent) :=
    match a.marriages with
    | some ms => some (ms.filter (fun m => !(m.partnerId == some deletedId)))
    | none => none
  let newDivorces : Option (List LocationEvent) :=
    match a.divorces with
    | some ds => some (ds.filter (fun d => !(d.partnerId == some deletedId)))
    | none => none
  if parentHit || a.marriages.isSome || a.divorces.isSome then
    { a with
      parentIds := newParentIds
      marriages := newMarriages
      divorces := newDivorces
      updatedAt := now }
  else a

/-- The `DELETE_ANCESTOR` reducer case on the ancestor collection. -/
def deleteAncestor (l : List Ancestor) (deletedId : String) (now : Nat) : List Ancestor :=
  (l.filter (fun a => !(a.id == deletedId))).map (cleanupAfterDelete deletedId now)

/-! ## Import boundary (`StorageService.importData` / `importFromBase64` hook) -/

/-- Snapshot data shape. `version` stays optional because a parsed import
payload may lack it (`!data.version` in `migrateData`). -/
structure FamilyHistoryData where
  ancestors : List Ancestor
  version : Option String
  createdAt : Nat
  updatedAt : Nat
deriving DecidableEq, Repr

def CURRENT_DATA_VERSION : String := "1.0.0"

/-- `migrateData`: both the no-op branch and the future-migration branch
return the data restamped with the current version. -/
def migrateData (d : FamilyHistoryData) : FamilyHistoryData :=
  match d.version with
  | none => { d with version := some CURRENT_DATA_VERSION }
  | some v =>
    if v = "" || v = CURRENT_DATA_VERSION then { d with version := some CURRENT_DATA_VERSION }
    else { d with version := some CURRENT_DATA_VERSION }

/-- The JSON payload as parsed: the `ancestors` field may be missing or not
an array (modelled as `none`); a record missing its `id` carries `""`. -/
structure RawFamilyData where
  ancestors : Option (List Ancestor)
  version : Option String
  createdAt : Nat
  updatedAt : Nat
deriving DecidableEq, Repr

/-- `StorageService.importData(jsonString)`, with the external `JSON.parse`
modelled as the already-parsed argument (`none` = parse threw). Returns
`none` where the source throws. -/
def importData (parsed : Option RawFamilyData) (now : Nat) : Option FamilyHistoryData :=
  match parsed with
  | none => none
  | some raw =>
    match raw.ancestors with
    | none => none
    | some ancs =>
      if ancs.any (fun a => a.id = "") then none
      else
        let migrated := migrateData
          { ancestors := ancs, version := raw.version
            createdAt := raw.createdAt, updatedAt := raw.updatedAt }
        some { migrated with updatedAt := now }

/-- `StorageService.importFromBase64`: the external
`decodeURIComponent(atob(...))` is modelled as the outer `Option` (`none` =
the token could not be decoded), the `JSON.parse` inside `importData` as the
inner one. -/
def importFromBase64 (decoded : Option (Option RawFamilyData)) (now : Nat) :
    Option FamilyHistoryData :=
  match decoded with
  | none => none
  | some parsed => importData parsed now

/-- `TypeGuards.isPartialDate`: each field, when present, must lie in its
range (year 1800–2024, month 1–12, day 1–31); the `typeof` checks are
automatic in the typed embedding. -/
def isPartialDate (d : PartialDate) : Bool :=
  (match d.year with
   | none => true
   | some y => decide (1800 ≤ y) && decide (y ≤ 2024))
  && (match d.month with
      | none => true
      | some m => decide (1 ≤ m) && decide (m ≤ 12))
  && (match d.day with
      | none => true
      | some dd => decide (1 ≤ dd) && decide (dd ≤ 31))

/-- `TypeGuards.isLocationEvent`: the date, when present, must be a valid
`PartialDate`; the string checks on `country`/`partnerId` are automatic in
the typed embedding. -/
def isLocationEvent (e : LocationEvent) : Bool :=
  match e.date with
  | none => true
  | some d => isPartialDate d

/-- `TypeGuards.isAncestor`: every present event (birth, death, and each
entry of the marriage/divorce/naturalization arrays) must be a valid
`LocationEvent`. The guard's `typeof` checks (id/name strings, numeric
timestamps) are automatic in the typed embedding, and its `parent1Id` /
`parent2Id` checks concern fields the current record shape no longer
carries; note the guard does not require `id` to be non-empty — that check
lives in `StorageService.importData`. -/
def isAncestor (a : Ancestor) : Bool :=
  (match a.birth with
   | none => true
   | some e => isLocationEvent e)
  && (match a.marriages with
      | none => true
      | some ms => ms.all (fun m => isLocationEvent m))
  && (match a.divorces with
      | none => true
      | some ds => ds.all (fun d => isLocationEvent d))
  && (match a.naturalizations with
      | none => true
      | some ns => ns.all (fun n => isLocationEvent n))
  && (match a.death with
      | none => true
      | some e => isLocationEvent e)

/-- `TypeGuards.isFamilyHistoryData` (src, `types/guards`): the ancestors
array must pass `isAncestor` record by record and `version` must be a
string (i.e. present); the numeric timestamp checks are automatic in the
typed embedding. -/
def isFamilyHistoryData (d : FamilyHistoryData) : Bool :=
  d.ancestors.all (fun a => isAncestor a) && d.version.isSome

/-- The `importFromBase64` handler of the storage hook: on any failure
(decode, parse, validation) it reports `false` and leaves the store as it
was; on success it dispatches `SET_DATA` with the imported snapshot,
replacing the collection wholesale. -/
def hookImportFromBase64 (decoded : Option (Option RawFamilyData))
    (store : FamilyHistoryData) (now : Nat) : Bool × FamilyHistoryData :=
  match importFromBase64 decoded now with
  | none => (false, store)
  | some importedData =>
    if isFamilyHistoryData importedData then (true, importedData) else (false, store)

/-! ## Theorems -/

/-- C9: on the empty collection the layout returns no nodes, no connections
and the default 800×400 canvas, and both eligibility queries return the
empty list; all three are total Lean functions, so no degenerate state makes
them fail. -/
theorem c9_layout_eligibility_total_on_empty :
    familyTreeLayout [] =
      { nodes := [], connections := [], dimensions := { width := 800, height := 400 } }
    ∧ (∀ cp ex, getEligibleParents cp [] ex = [])
    ∧ (∀ cp ex ms ds by_, getEligibleChildren cp [] ex ms ds by_ = []) := by
  refine ⟨rfl, ?_, ?_⟩
  · intro cp ex
    simp [getEligibleParents]
  · intro cp ex ms ds by_
    simp [getEligibleChildren]

/-- Concrete two-person collection: `cexB` is already a parent of `cexA`. -/
def cexA : Ancestor := { id := "A", generation := 0, parentIds := some ["B"] }

def cexB : Ancestor := { id := "B", generation := 1 }

/-- C3 counterexample: `cexA` is a descendant of `cexB` (B is A's parent),
so the claim's clause "person is not a descendant of p" would exclude B from
`eligibleParents(A)`; the code includes B (matching the spec's own scenario
"eligibleParents(A) includes B"). The code's actual clause filters the
opposite direction. -/
theorem c3_counterexample :
    cexB ∈ getEligibleParents (some cexA) [cexA, cexB] []
    ∧ isDescendantOf cexA cexB [cexA, cexB] = true := by decide

/-- C3 amended: `eligibleParents(person, all, excludedIds)` returns exactly
the Persons `p` in the collection with `p.id ≠ person.id`, `p.id` not in
`excludedIds`, `p.generation ≥ person.generation`, and — direction corrected
— `p` is not a descendant of `person` (rather than `person` not a descendant
of `p`); in particular `person` itself is never returned. -/
theorem c3_eligible_parents_characterization (person : Ancestor)
    (all : List Ancestor) (excluded : List String) :
    (∀ p, p ∈ getEligibleParents (some person) all excluded ↔
      (p ∈ all ∧ p.id ≠ person.id ∧ p.id ∉ excluded ∧
       person.generation ≤ p.generation ∧ isDescendantOf p person all = false))
    ∧ person ∉ getEligibleParents (some person) all excluded := by
  have hmain : ∀ p, p ∈ getEligibleParents (some person) all excluded ↔
      (p ∈ all ∧ p.id ≠ person.id ∧ p.id ∉ excluded ∧
       person.generation ≤ p.generation ∧ isDescendantOf p person all = false) := by
    intro p
    by_cases hemp : all.isEmpty
    · have : all = [] := List.isEmpty_iff.mp hemp
      subst this
      simp [getEligibleParents]
    · simp only [getEligibleParents, if_neg hemp, List.mem_filter, Option.map_some',
        Option.getD_some]
      constructor
      · rintro ⟨hmem, hpred⟩
        refine ⟨hmem, ?_⟩
        by_cases h1 : some person.id = some p.id
        · rw [if_pos h1] at hpred; exact absurd hpred (by decide)
        rw [if_neg h1] at hpred
        by_cases h2 : excluded.contains p.id = true
        · rw [if_pos h2] at hpred; exact absurd hpred (by decide)
        rw [if_neg h2] at hpred
        by_cases h3 : p.generation < person.generation
        · rw [if_pos h3] at hpred; exact absurd hpred (by decide)
        rw [if_neg h3] at hpred
        refine ⟨fun he => h1 (by rw [he]), fun hm => h2 (by simpa using hm),
          not_lt.mp h3, by simpa using hpred⟩
      · rintro ⟨hmem, hid, hex, hgen, hdesc⟩
        refine ⟨hmem, ?_⟩
        rw [if_neg (fun h1 => hid (Option.some_injective _ h1).symm),
          if_neg (fun h2 => hex (by simpa using h2)),
          if_neg (not_lt.mpr hgen)]
        simpa using hdesc
  exact ⟨hmain, fun hmem => by
    have := (hmain person).mp hmem
    exact this.2.1 rfl⟩

/-- The spec's chain: `chainP2` is a parent of `chainP1`, `chainP3` a parent
of `chainP2`. -/
def chainP1 : Ancestor := { id := "p1", generation := 0, parentIds := some ["p2"] }

def chainP2 : Ancestor := { id := "p2", generation := 1, parentIds := some ["p3"] }

def chainP3 : Ancestor := { id := "p3", generation := 2 }

/-- C4 counterexample: `chainP3` is an ancestor of `chainP1`, so the claim's
clause "person is not an ancestor of c" would exclude `p1` from
`eligibleChildren(p3, …)`; the code includes `p1` — its actual clause
excludes a candidate that is an ancestor of the person, not a descendant. -/
theorem c4_counterexample :
    chainP1 ∈ getEligibleChildren (some chainP3) [chainP1, chainP2, chainP3] [] [] [] none
    ∧ isAncestorOf chainP3 chainP1 [chainP1, chainP2, chainP3] = true := by decide

/-- C4 amended: `eligibleChildren(person, all, excludedIds, pendingMarriages,
pendingDivorces, birthYearOverride)` returns exactly the Persons `c` with
`c.id ≠ person.id`, `c.id` not excluded, `c` not referenced as partner by a
pending marriage or divorce entry, `c.generation ≤ person.generation`, — 
direction corrected — `c` is not an ancestor of `person` (rather than
`person` not an ancestor of `c`), and, when the person's effective birth
year (the saved year, else the override; 0 counts as unknown) and `c`'s
birth year are both known, `c`'s birth year strictly exceeds it. -/
theorem c4_eligible_children_characterization (person : Ancestor) (all : List Ancestor)
    (excluded : List String) (marriages divorces : List LocationEvent)
    (birthYear : Option Int) :
    ∀ c, c ∈ getEligibleChildren (some person) all excluded marriages divorces birthYear ↔
      (c ∈ all ∧ c.id ≠ person.id ∧ c.id ∉ excluded ∧
       (∀ m ∈ marriages, m.partnerId ≠ some c.id) ∧
       (∀ d ∈ divorces, d.partnerId ≠ some c.id) ∧
       c.generation ≤ person.generation ∧
       isAncestorOf c person all = false ∧
       (∀ cy chy, jsTruthyInt (jsOrInt (birthYearOf person) birthYear) = some cy →
          jsTruthyInt (birthYearOf c) = some chy → cy < chy)) := by
  intro c
  by_cases hemp : all.isEmpty
  · have : all = [] := List.isEmpty_iff.mp hemp
    subst this
    simp [getEligibleChildren]
  simp only [getEligibleChildren, if_neg hemp, List.mem_filter, Option.map_some',
    Option.getD_some, Option.some_bind]
  constructor
  · rintro ⟨hmem, hpred⟩
    refine ⟨hmem, ?_⟩
    by_cases h1 : some person.id = some c.id
    · rw [if_pos h1] at hpred; exact absurd hpred (by decide)
    rw [if_neg h1] at hpred
    by_cases h2 : excluded.contains c.id = true
    · rw [if_pos h2] at hpred; exact absurd hpred (by decide)
    rw [if_neg h2] at hpred
    by_cases h3 : (marriages.any (fun m => m.partnerId = some c.id)
        || divorces.any (fun d => d.partnerId = some c.id)) = true
    · rw [if_pos h3] at hpred; exact absurd hpred (by decide)
    rw [if_neg h3] at hpred
    by_cases h4 : person.generation < c.generation
    · rw [if_pos h4] at hpred; exact absurd hpred (by decide)
    rw [if_neg h4] at hpred
    by_cases h5 : isAncestorOf c person all = true
    · rw [if_pos h5] at hpred; exact absurd hpred (by decide)
    rw [if_neg h5] at hpred
    have h3' : (∀ m ∈ marriages, m.partnerId ≠ some c.id)
        ∧ (∀ d ∈ divorces, d.partnerId ≠ some c.id) := by
      simpa [List.any_eq_true, not_or] using h3
    refine ⟨fun he => h1 (by rw [he]), fun hm => h2 (by simpa using hm),
      h3'.1, h3'.2, not_lt.mp h4, by simpa using h5, ?_⟩
    intro cy chy hcy hchy
    rw [hcy, hchy] at hpred
    simpa using hpred
  · rintro ⟨hmem, hid, hex, hms, hds, hgen, hanc, hby⟩
    refine ⟨hmem, ?_⟩
    rw [if_neg (fun h1 => hid (Option.some_injective _ h1).symm),
      if_neg (fun h2 => hex (by simpa using h2)),
      if_neg (show ¬(marriages.any (fun m => m.partnerId = some c.id)
        || divorces.any (fun d => d.partnerId = some c.id)) = true by
          simp [List.any_eq_true, not_or]
          exact ⟨hms, hds⟩),
      if_neg (not_lt.mpr hgen),
      if_neg (by simpa using hanc)]
    rcases hA : jsTruthyInt (jsOrInt (birthYearOf person) birthYear) with _ | cy
    · rcases hB : jsTruthyInt (birthYearOf c) with _ | chy <;> simp
    · rcases hB : jsTruthyInt (birthYearOf c) with _ | chy
      · simp
      · simpa using hby cy chy hA hB

/-- Every member of the generation bucket for `g` stores generation `g`. -/
theorem mem_genBucket_gen {l : List Ancestor} {g : Int} {a : Ancestor}
    (h : a ∈ genBucket l g) : a.generation = g := by
  have := List.of_mem_filter h
  simpa using this

theorem sortedGenKeys_perm (l : List Ancestor) : List.Perm (sortedGenKeys l) (genKeys l) :=
  List.perm_insertionSort _ _

theorem sortedGenKeys_nodup (l : List Ancestor) : (sortedGenKeys l).Nodup :=
  ((sortedGenKeys_perm l).nodup_iff).mpr (List.nodup_dedup _)

theorem mem_sortedGenKeys {l : List Ancestor} {g : Int} :
    g ∈ sortedGenKeys l ↔ g ∈ l.map (fun a => a.generation) := by
  rw [(sortedGenKeys_perm l).mem_iff]
  simp [genKeys]

/-- Filtering a keyed flat-map down to one key keeps exactly that key's
segment, when the key occurs once and the segments are homogeneous. -/
theorem bind_filter_single {β : Type} (keys : List Int) (f : Int → List β)
    (p : β → Bool) (g : Int) (hnd : keys.Nodup) (hmem : g ∈ keys)
    (hg : ∀ b ∈ f g, p b = true)
    (hother : ∀ g' ∈ keys, g' ≠ g → ∀ b ∈ f g', p b = false) :
    (keys.flatMap f).filter p = f g := by
  induction keys with
  | nil => cases hmem
  | cons k ks ih =>
    rw [List.flatMap_cons, List.filter_append]
    rcases List.mem_cons.mp hmem with hk | hk
    · cases hk
      have h1 : (f g).filter p = f g := List.filter_eq_self.mpr hg
      have h2 : (ks.flatMap f).filter p = [] := by
        apply List.filter_eq_nil_iff.mpr
        intro b hb
        rcases List.mem_flatMap.mp hb with ⟨g', hg', hbg'⟩
        have hne : g' ≠ g := fun he => (List.nodup_cons.mp hnd).1 (he ▸ hg')
        simp [hother g' (List.mem_cons_of_mem _ hg') hne b hbg']
      rw [h1, h2, List.append_nil]
    · have hne : k ≠ g := fun he => (List.nodup_cons.mp hnd).1 (he ▸ hk)
      have h1 : (f k).filter p = [] := by
        apply List.filter_eq_nil_iff.mpr
        intro b hb
        simp [hother k (List.mem_cons_self _ _) hne b hb]
      rw [h1, List.nil_append]
      exact ih (List.nodup_cons.mp hnd).2 hk
        (fun g' hg' => hother g' (List.mem_cons_of_mem _ hg'))

/-- The nodes of generation `g` are exactly the bucket for `g`, indexed in
order. -/
theorem layoutNodes_filter_gen (l : List Ancestor) (g : Int)
    (hg : g ∈ l.map (fun a => a.generation)) :
    (layoutNodes l).filter (fun n => n.generation = g)
      = ((genBucket l g).enum).map (fun p => mkTreeNode (maxGenerationOf l) p.1 p.2) := by
  unfold layoutNodes
  apply bind_filter_single _ _ _ _ (sortedGenKeys_nodup l) (mem_sortedGenKeys.mpr hg)
  · intro b hb
    rcases List.mem_map.mp hb with ⟨q, hq, hqe⟩
    have : (q.2).generation = g :=
      mem_genBucket_gen (List.getElem?_mem (List.mem_enum_iff_getElem?.mp hq))
    simp [← hqe, mkTreeNode, this]
  · intro g' _ hne b hb
    rcases List.mem_map.mp hb with ⟨q, hq, hqe⟩
    have : (q.2).generation = g' :=
      mem_genBucket_gen (List.getElem?_mem (List.mem_enum_iff_getElem?.mp hq))
    simp [← hqe, mkTreeNode, this, hne]

theorem foldl_max_le_nat (ns : List Nat) (init : Nat) :
    init ≤ ns.foldl max init ∧ ∀ x ∈ ns, x ≤ ns.foldl max init := by
  induction ns generalizing init with
  | nil => simp
  | cons n ns ih =>
    rcases ih (max init n) with ⟨hinit, hall⟩
    refine ⟨le_trans (le_max_left _ _) hinit, ?_⟩
    intro x hx
    rcases List.mem_cons.mp hx with rfl | hx
    · exact le_trans (le_max_right _ _) hinit
    · exact hall x hx

theorem foldl_max_mem_nat (ns : List Nat) (init : Nat) :
    ns.foldl max init = init ∨ ns.foldl max init ∈ ns := by
  induction ns generalizing init with
  | nil => simp
  | cons n ns ih =>
    rcases ih (max init n) with h | h
    · rcases Nat.le_total init n with hle | hle
      · right
        rw [List.foldl_cons, h, max_eq_right hle]
        exact List.mem_cons_self _ _
      · left
        rw [List.foldl_cons, h, max_eq_left hle]
    · right
      exact List.mem_cons_of_mem _ h

/-- `maxNodesInGen` bounds every generation bucket. -/
theorem genBucket_length_le_maxNodesInGen (l : List Ancestor) (g : Int)
    (hg : g ∈ l.map (fun a => a.generation)) :
    (genBucket l g).length ≤ maxNodesInGen l := by
  have hmemkeys : g ∈ genKeys l := by simp [genKeys, hg]
  unfold maxNodesInGen
  rcases hks : (genKeys l).map (fun g => (genBucket l g).length) with _ | ⟨n, ns⟩
  · rcases List.map_eq_nil_iff.mp hks with h
    rw [h] at hmemkeys
    cases hmemkeys
  · have hlen : (genBucket l g).length ∈ (genKeys l).map (fun g => (genBucket l g).length) :=
      List.mem_map_of_mem _ hmemkeys
    rw [hks] at hlen
    rcases List.mem_cons.mp hlen with he | hm
    · exact he ▸ (foldl_max_le_nat ns n).1
    · exact (foldl_max_le_nat ns n).2 _ hm

/-- `maxNodesInGen` is attained by some generation bucket. -/
theorem maxNodesInGen_attained (l : List Ancestor) (hne : l ≠ []) :
    ∃ g0 ∈ l.map (fun a => a.generation), (genBucket l g0).length = maxNodesInGen l := by
  have hkeysne : genKeys l ≠ [] := by
    rcases l with _ | ⟨a, l⟩
    · exact absurd rfl hne
    · intro h
      have hmem : a.generation ∈ (List.map (fun a => a.generation) (a :: l)).dedup := by
        simp
      rw [genKeys] at h
      rw [h] at hmem
      cases hmem
  have : ∃ g0 ∈ genKeys l, (genBucket l g0).length = maxNodesInGen l := by
    rcases hks : (genKeys l).map (fun g => (genBucket l g).length) with _ | ⟨n, ns⟩
    · exact absurd (List.map_eq_nil_iff.mp hks) hkeysne
    · have hM : maxNodesInGen l = ns.foldl max n := by
        simp only [maxNodesInGen, hks]
      rcases foldl_max_mem_nat ns n with h | h
      · have : n ∈ (genKeys l).map (fun g => (genBucket l g).length) := by
          rw [hks]; exact List.mem_cons_self _ _
        rcases List.mem_map.mp this with ⟨g0, hg0, hg0e⟩
        exact ⟨g0, hg0, by rw [hg0e, hM, h]⟩
      · have : ns.foldl max n ∈ (genKeys l).map (fun g => (genBucket l g).length) := by
          rw [hks]; exact List.mem_cons_of_mem _ h
        rcases List.mem_map.mp this with ⟨g0, hg0, hg0e⟩
        exact ⟨g0, hg0, by rw [hg0e, hM]⟩
  rcases this with ⟨g0, hg0, hg0e⟩
  exact ⟨g0, by simpa [genKeys] using hg0, hg0e⟩

/-- Concrete layout input: one gen-0 person against three gen-1 persons. -/
def cexQ0 : Ancestor := { id := "q0", generation := 0, parentIds := some ["q1"] }

def cexQ1 : Ancestor := { id := "q1", generation := 1 }

def cexQ2 : Ancestor := { id := "q2", generation := 1 }

def cexQ3 : Ancestor := { id := "q3", generation := 1 }

/-- C1 counterexample: with one gen-0 person and three gen-1 persons the
canvas is 800 wide (defined by the widest generation), but the single gen-0
node sits at `x = 200`, not at the canvas centre 400: its bucket is
left-aligned (`2 * 200 ≠ 800`), not centered relative to the canvas width as
the claim states. -/
theorem c1_counterexample :
    (((familyTreeLayout [cexQ0, cexQ1, cexQ2, cexQ3]).nodes.filter
        (fun n => n.generation = 0)).map (fun n => n.x) = [200])
    ∧ (familyTreeLayout [cexQ0, cexQ1, cexQ2, cexQ3]).dimensions.width = 800
    ∧ ¬(2 * 200 = (familyTreeLayout [cexQ0, cexQ1, cexQ2, cexQ3]).dimensions.width) := by
  decide

/-- C1 amended: within each generation bucket Persons are placed left to
right at the fixed spacing `MIN_HORIZONTAL_SPACING`, every bucket starting
at the same left offset (`nodeX 0 = 200`) — i.e. buckets are left-aligned,
not centered — and the widest generation defines the canvas width
`maxNodesInGen * MIN_HORIZONTAL_SPACING + 2 * PADDING`. -/
theorem c1_layout_left_aligned (l : List Ancestor) (g : Int)
    (hg : g ∈ l.map (fun a => a.generation)) :
    (((familyTreeLayout l).nodes.filter (fun n => n.generation = g)).map (fun n => n.x)
      = (List.range (genBucket l g).length).map nodeX)
    ∧ (∀ g' ∈ l.map (fun a => a.generation), (genBucket l g').length ≤ maxNodesInGen l)
    ∧ (∃ g0 ∈ l.map (fun a => a.generation), (genBucket l g0).length = maxNodesInGen l)
    ∧ (familyTreeLayout l).dimensions.width
        = maxNodesInGen l * MIN_HORIZONTAL_SPACING + 2 * LAYOUT_PADDING := by
  have hne : l ≠ [] := by
    rintro rfl
    cases hg
  have hnodes : (familyTreeLayout l).nodes = layoutNodes l := by
    rcases l with _ | ⟨a, l⟩
    · exact absurd rfl hne
    · rfl
  have hdim : (familyTreeLayout l).dimensions.width
      = maxNodesInGen l * MIN_HORIZONTAL_SPACING + 2 * LAYOUT_PADDING := by
    rcases l with _ | ⟨a, l⟩
    · exact absurd rfl hne
    · rfl
  refine ⟨?_, fun g' hg' => genBucket_length_le_maxNodesInGen l g' hg',
    maxNodesInGen_attained l hne, hdim⟩
  rw [hnodes, layoutNodes_filter_gen l g hg]
  rw [List.map_map]
  have hx : ((fun n => n.x) ∘ fun p => mkTreeNode (maxGenerationOf l) p.1 p.2)
      = (fun p : Nat × Ancestor => nodeX p.1) := rfl
  rw [hx]
  have : (fun p : Nat × Ancestor => nodeX p.1) = nodeX ∘ Prod.fst := rfl
  rw [this, ← List.map_map, List.enum_map_fst]

theorem cleanupAfterDelete_id (d : String) (n : Nat) (a : Ancestor) :
    (cleanupAfterDelete d n a).id = a.id := by
  dsimp only [cleanupAfterDelete]
  by_cases hc : ((a.parentIds.getD []).contains d || a.marriages.isSome
      || a.divorces.isSome) = true
  · rw [if_pos hc]
  · rw [if_neg hc]

theorem cleanupAfterDelete_parentIds_not_mem (d : String) (n : Nat) (a : Ancestor) :
    d ∉ (cleanupAfterDelete d n a).parentIds.getD [] := by
  dsimp only [cleanupAfterDelete]
  by_cases hhit : (a.parentIds.getD []).contains d = true
  · have hc : ((a.parentIds.getD []).contains d || a.marriages.isSome
        || a.divorces.isSome) = true := by rw [hhit]; rfl
    rw [if_pos hc, if_pos hhit]
    dsimp only
    by_cases hemp : ((a.parentIds.getD []).filter (fun i => !(i == d))).isEmpty = true
    · rw [if_pos hemp]
      simp
    · rw [if_neg hemp, Option.getD_some]
      intro hmem
      have := List.of_mem_filter hmem
      simp at this
  · have hnot : d ∉ a.parentIds.getD [] := fun hmem => hhit (by simpa using hmem)
    by_cases hc : ((a.parentIds.getD []).contains d || a.marriages.isSome
        || a.divorces.isSome) = true
    · rw [if_pos hc, if_neg hhit]
      exact hnot
    · rw [if_neg hc]
      exact hnot

theorem cleanupAfterDelete_marriages (d : String) (n : Nat) (a : Ancestor) :
    ∀ e ∈ (cleanupAfterDelete d n a).marriages.getD [], e.partnerId ≠ some d := by
  dsimp only [cleanupAfterDelete]
  rcases hms : a.marriages with _ | ms
  · by_cases hc : ((a.parentIds.getD []).contains d
        || (none : Option (List LocationEvent)).isSome || a.divorces.isSome) = true
    · rw [if_pos hc]
      simp
    · rw [if_neg hc, hms]
      simp
  · have hc : ((a.parentIds.getD []).contains d
        || (some ms).isSome || a.divorces.isSome) = true := by
      simp only [Option.isSome_some, Bool.true_or, Bool.or_true]
    rw [if_pos hc]
    dsimp only
    intro e hmem
    rw [Option.getD_some] at hmem
    have := List.of_mem_filter hmem
    simpa using this

theorem cleanupAfterDelete_divorces (d : String) (n : Nat) (a : Ancestor) :
    ∀ e ∈ (cleanupAfterDelete d n a).divorces.getD [], e.partnerId ≠ some d := by
  dsimp only [cleanupAfterDelete]
  rcases hds : a.divorces with _ | ds
  · by_cases hc : ((a.parentIds.getD []).contains d || a.marriages.isSome
        || (none : Option (List LocationEvent)).isSome) = true
    · rw [if_pos hc]
      simp
    · rw [if_neg hc, hds]
      simp
  · have hc : ((a.parentIds.getD []).contains d || a.marriages.isSome
        || (some ds).isSome) = true := by
      simp only [Option.isSome_some, Bool.true_or, Bool.or_true]
    rw [if_pos hc]
    dsimp only
    intro e hmem
    rw [Option.getD_some] at hmem
    have := List.of_mem_filter hmem
    simpa using this

theorem cleanupAfterDelete_parentIds_ne_nil (d : String) (n : Nat) (a : Ancestor)
    (h : a.parentIds ≠ some []) : (cleanupAfterDelete d n a).parentIds ≠ some [] := by
  dsimp only [cleanupAfterDelete]
  by_cases hhit : (a.parentIds.getD []).contains d = true
  · have hc : ((a.parentIds.getD []).contains d || a.marriages.isSome
        || a.divorces.isSome) = true := by rw [hhit]; rfl
    rw [if_pos hc, if_pos hhit]
    dsimp only
    by_cases hemp : ((a.parentIds.getD []).filter (fun i => !(i == d))).isEmpty = true
    · rw [if_pos hemp]
      simp
    · rw [if_neg hemp]
      intro hcon
      have := Option.some_injective _ hcon
      simp [this] at hemp
  · by_cases hc : ((a.parentIds.getD []).contains d || a.marriages.isSome
        || a.divorces.isSome) = true
    · rw [if_pos hc, if_neg hhit]
      exact h
    · rw [if_neg hc]
      exact h

theorem cleanupAfterDelete_stamps (d : String) (n : Nat) (a : Ancestor) :
    ((a.marriages.isSome = true ∨ a.divorces.isSome = true) →
      (cleanupAfterDelete d n a).updatedAt = n)
    ∧ (∀ ms, a.marriages = some ms →
        (cleanupAfterDelete d n a).marriages
          = some (ms.filter (fun m => !(m.partnerId == some d))))
    ∧ (∀ ds, a.divorces = some ds →
        (cleanupAfterDelete d n a).divorces
          = some (ds.filter (fun e => !(e.partnerId == some d)))) := by
  refine ⟨?_, ?_, ?_⟩
  · intro hsome
    have hc : ((a.parentIds.getD []).contains d || a.marriages.isSome
        || a.divorces.isSome) = true := by
      rcases hsome with h | h <;> simp [h]
    dsimp only [cleanupAfterDelete]
    rw [if_pos hc]
  · intro ms hms
    have hc : ((a.parentIds.getD []).contains d || a.marriages.isSome
        || a.divorces.isSome) = true := by simp [hms]
    dsimp only [cleanupAfterDelete]
    rw [if_pos hc, hms]
  · intro ds hds
    have hc : ((a.parentIds.getD []).contains d || a.marriages.isSome
        || a.divorces.isSome) = true := by simp [hds]
    dsimp only [cleanupAfterDelete]
    rw [if_pos hc, hds]

theorem cleanupAfterDelete_frame (d : String) (n : Nat) (a : Ancestor)
    (h1 : a.marriages = none) (h2 : a.divorces = none)
    (h3 : d ∉ a.parentIds.getD []) : cleanupAfterDelete d n a = a := by
  have hhit : (a.parentIds.getD []).contains d = false := by
    rw [← Bool.not_eq_true]
    intro hc
    exact h3 (by simpa using hc)
  have hc : ¬((a.parentIds.getD []).contains d || a.marriages.isSome
      || a.divorces.isSome) = true := by simp [hhit, h1, h2, h3]
  dsimp only [cleanupAfterDelete]
  rw [if_neg hc]

/-- C5: `delete(id)` removes the Person with that id and nothing else, and
every surviving record has `id` dropped from its `parentIds` (the field
removed rather than left `some []` whenever dropping empties it), and no
marriage or divorce Event referencing `id` as partner. -/
theorem c5_delete_cascade (l : List Ancestor) (did : String) (now : Nat)
    (hex : did ∈ l.map (fun a => a.id)) :
    ((deleteAncestor l did now).map (fun a => a.id)
        = (l.filter (fun a => !(a.id == did))).map (fun a => a.id))
    ∧ (∀ b ∈ deleteAncestor l did now,
        b.id ≠ did
        ∧ did ∉ b.parentIds.getD []
        ∧ (∀ e ∈ b.marriages.getD [], e.partnerId ≠ some did)
        ∧ (∀ e ∈ b.divorces.getD [], e.partnerId ≠ some did))
    ∧ ((∀ a ∈ l, a.parentIds ≠ some []) →
        ∀ b ∈ deleteAncestor l did now, b.parentIds ≠ some []) := by
  refine ⟨?_, ?_, ?_⟩
  · unfold deleteAncestor
    rw [List.map_map]
    exact List.map_congr_left (fun a _ => cleanupAfterDelete_id did now a)
  · intro b hb
    rcases List.mem_map.mp hb with ⟨a, ha, rfl⟩
    have haid : a.id ≠ did := by
      have := List.of_mem_filter ha
      simpa using this
    exact ⟨by rw [cleanupAfterDelete_id]; exact haid,
      cleanupAfterDelete_parentIds_not_mem did now a,
      cleanupAfterDelete_marriages did now a,
      cleanupAfterDelete_divorces did now a⟩
  · intro hnil b hb
    rcases List.mem_map.mp hb with ⟨a, ha, rfl⟩
    exact cleanupAfterDelete_parentIds_ne_nil did now a
      (hnil a (List.mem_of_mem_filter ha))

def delX : Ancestor := { id := "X", generation := 1 }

def delY : Ancestor := { id := "Y", generation := 0, parentIds := some ["X"] }

def delZ : Ancestor :=
  { id := "Z", generation := 0, marriages := some [{ partnerId := some "X" }] }

def delW : Ancestor := { id := "W", generation := 0 }

/-- C5 witness: the cascade at the spec's concrete scenario (Y a child of X,
Z married to X). -/
theorem c5_delete_cascade_witness :
    (deleteAncestor [delX, delY, delZ] "X" 99).map (fun a => a.id)
      = ([delX, delY, delZ].filter (fun a => !(a.id == "X"))).map (fun a => a.id) :=
  (c5_delete_cascade [delX, delY, delZ] "X" 99 (by decide)).1

/-- C10: the delete cascade's frame effect: every survivor that carries a
`marriages` or `divorces` array gets both arrays replaced by filtered copies
and its `updatedAt` stamped even when no entry referenced the deleted id,
while a survivor with neither array and no `parentIds` hit is returned as
the identical record, `updatedAt` untouched. -/
theorem c10_delete_frame (l : List Ancestor) (did : String) (now : Nat) (a : Ancestor)
    (ha : a ∈ l) (hid : a.id ≠ did) :
    cleanupAfterDelete did now a ∈ deleteAncestor l did now
    ∧ ((a.marriages.isSome = true ∨ a.divorces.isSome = true) →
        (cleanupAfterDelete did now a).updatedAt = now)
    ∧ (∀ ms, a.marriages = some ms →
        (cleanupAfterDelete did now a).marriages
          = some (ms.filter (fun m => !(m.partnerId == some did))))
    ∧ (∀ ds, a.divorces = some ds →
        (cleanupAfterDelete did now a).divorces
          = some (ds.filter (fun e => !(e.partnerId == some did))))
    ∧ (a.marriages = none → a.divorces = none → did ∉ a.parentIds.getD [] →
        cleanupAfterDelete did now a = a) := by
  refine ⟨?_, (cleanupAfterDelete_stamps did now a).1,
    (cleanupAfterDelete_stamps did now a).2.1,
    (cleanupAfterDelete_stamps did now a).2.2,
    cleanupAfterDelete_frame did now a⟩
  unfold deleteAncestor
  exact List.mem_map_of_mem _ (List.mem_filter.mpr ⟨ha, by simpa using hid⟩)

/-- C10 witness: `delZ` (carries a marriages array) is restamped; `delW`
(no arrays, no parent hit) is returned identically. -/
theorem c10_delete_frame_witness :
    (cleanupAfterDelete "X" 99 delZ).updatedAt = 99
    ∧ cleanupAfterDelete "X" 99 delW = delW :=
  ⟨(c10_delete_frame [delX, delY, delZ, delW] "X" 99 delZ (by decide) (by decide)).2.1
      (Or.inl (by decide)),
    (c10_delete_frame [delX, delY, delZ, delW] "X" 99 delW (by decide) (by decide)).2.2.2.2
      rfl rfl (by decide)⟩

theorem migrateData_eq (x : FamilyHistoryData) :
    migrateData x = { x with version := some CURRENT_DATA_VERSION } := by
  rcases x with ⟨ancs, ver, c, u⟩
  rcases ver with _ | v
  · rfl
  · unfold migrateData
    dsimp only
    split <;> rfl

theorem importFromBase64_eq_some (decoded : Option (Option RawFamilyData))
    (now : Nat) (d : FamilyHistoryData) :
    importFromBase64 decoded now = some d ↔
      ∃ raw ancs, decoded = some (some raw) ∧ raw.ancestors = some ancs
        ∧ (ancs.any (fun a => a.id = "")) = false
        ∧ d = { ancestors := ancs, version := some CURRENT_DATA_VERSION,
                createdAt := raw.createdAt, updatedAt := now } := by
  rcases decoded with _ | parsed
  · simp [importFromBase64]
  rcases parsed with _ | raw
  · simp [importFromBase64, importData]
  rcases hra : raw.ancestors with _ | ancs
  · simp [importFromBase64, importData, hra]
  by_cases hany : (ancs.any (fun a => a.id = "")) = true
  · constructor
    · intro h
      simp [importFromBase64, importData, hra, hany] at h
    · rintro ⟨raw', ancs', heq, hra', hany', _⟩
      cases heq
      rw [hra] at hra'
      cases hra'
      rw [hany] at hany'
      cases hany'
  · have hany' : (ancs.any (fun a => a.id = "")) = false :=
      Bool.eq_false_iff.mpr hany
    simp only [importFromBase64, importData, hra, if_neg hany, migrateData_eq,
      Option.some.injEq]
    constructor
    · intro hd
      exact ⟨raw, ancs, rfl, hra, hany', hd.symm⟩
    · rintro ⟨raw', ancs', heq, hra', _, hd⟩
      cases heq
      rw [hra] at hra'
      cases hra'
      exact hd.symm

theorem all_ids_nonempty_of_any_empty_false (ancs : List Ancestor)
    (h : (ancs.any (fun a => a.id = "")) = false) :
    ancs.all (fun a => !(a.id == "")) = true := by
  apply List.all_eq_true.mpr
  intro a hmem
  rcases hba : (a.id == "") with _ | _
  · simp
  · exfalso
    have hany : (ancs.any (fun a => a.id = "")) = true :=
      List.any_eq_true.mpr ⟨a, hmem, by simpa using hba⟩
    rw [h] at hany
    cases hany

/-- C8: import is all-or-nothing: a failed decode, a failed parse, a missing
`ancestors` array, any record with an empty id, or any record rejected by
the `TypeGuards` validation (e.g. an out-of-range date) makes the handler
report `false` and leave the store exactly as it was; a payload passing all
checks — every id non-empty and every record accepted by the guard —
replaces the snapshot wholesale (its `ancestors` become the store's whole
collection). -/
theorem c8_import_all_or_nothing (decoded : Option (Option RawFamilyData))
    (store : FamilyHistoryData) (now : Nat) :
    (∀ ok store', hookImportFromBase64 decoded store now = (ok, store') →
        (ok = false → store' = store)
      ∧ (ok = true → ∃ raw ancs, decoded = some (some raw) ∧ raw.ancestors = some ancs
          ∧ ancs.all (fun a => !(a.id == "")) = true
          ∧ ancs.all (fun a => isAncestor a) = true
          ∧ store'.ancestors = ancs))
    ∧ (decoded = none → hookImportFromBase64 decoded store now = (false, store))
    ∧ (decoded = some none → hookImportFromBase64 decoded store now = (false, store))
    ∧ (∀ raw ancs a, decoded = some (some raw) → raw.ancestors = some ancs →
        a ∈ ancs → a.id = "" →
        hookImportFromBase64 decoded store now = (false, store))
    ∧ (∀ raw ancs, decoded = some (some raw) → raw.ancestors = some ancs →
        ancs.all (fun a => isAncestor a) = false →
        hookImportFromBase64 decoded store now = (false, store))
    ∧ (∀ raw ancs, decoded = some (some raw) → raw.ancestors = some ancs →
        (∀ a ∈ ancs, a.id ≠ "") → ancs.all (fun a => isAncestor a) = true →
        hookImportFromBase64 decoded store now
          = (true, { ancestors := ancs, version := some CURRENT_DATA_VERSION,
                     createdAt := raw.createdAt, updatedAt := now })) := by
  refine ⟨?_, ?_, ?_, ?_, ?_, ?_⟩
  · intro ok store' heq
    rcases him : importFromBase64 decoded now with _ | d
    · have hres : hookImportFromBase64 decoded store now = (false, store) := by
        simp only [hookImportFromBase64, him]
      rw [hres] at heq
      injection heq with h1 h2
      subst h1
      subst h2
      exact ⟨fun _ => rfl, fun hok => Bool.noConfusion hok⟩
    · by_cases hg : isFamilyHistoryData d = true
      · have hres : hookImportFromBase64 decoded store now = (true, d) := by
          simp only [hookImportFromBase64, him, if_pos hg]
        rw [hres] at heq
        injection heq with h1 h2
        subst h1
        subst h2
        refine ⟨fun hok => Bool.noConfusion hok, fun _ => ?_⟩
        rcases (importFromBase64_eq_some decoded now d).mp him with
          ⟨raw, ancs, hdec, hra, hany, hd⟩
        have hall : ancs.all (fun a => isAncestor a) = true := by
          rw [isFamilyHistoryData, hd] at hg
          simp only [Bool.and_eq_true] at hg
          exact hg.1
        exact ⟨raw, ancs, hdec, hra,
          all_ids_nonempty_of_any_empty_false ancs hany, hall, by rw [hd]⟩
      · have hres : hookImportFromBase64 decoded store now = (false, store) := by
          simp only [hookImportFromBase64, him, if_neg hg]
        rw [hres] at heq
        injection heq with h1 h2
        subst h1
        subst h2
        exact ⟨fun _ => rfl, fun hok => Bool.noConfusion hok⟩
  · rintro rfl
    rfl
  · rintro rfl
    rfl
  · intro raw ancs a hdec hra hmem hids
    subst hdec
    have hany : (ancs.any (fun a => a.id = "")) = true :=
      List.any_eq_true.mpr ⟨a, hmem, by simpa using hids⟩
    have him : importFromBase64 (some (some raw)) now = none := by
      simp [importFromBase64, importData, hra, hany]
    simp only [hookImportFromBase64, him]
  · intro raw ancs hdec hra hguard
    subst hdec
    by_cases hany : (ancs.any (fun a => a.id = "")) = true
    · have him : importFromBase64 (some (some raw)) now = none := by
        simp [importFromBase64, importData, hra, hany]
      simp only [hookImportFromBase64, him]
    · have hany' : (ancs.any (fun a => a.id = "")) = false :=
        Bool.eq_false_iff.mpr hany
      have him : importFromBase64 (some (some raw)) now
          = some { ancestors := ancs, version := some CURRENT_DATA_VERSION,
                   createdAt := raw.createdAt, updatedAt := now } :=
        (importFromBase64_eq_some _ _ _).mpr ⟨raw, ancs, rfl, hra, hany', rfl⟩
      have hg : isFamilyHistoryData
          { ancestors := ancs, version := some CURRENT_DATA_VERSION,
            createdAt := raw.createdAt, updatedAt := now } = false := by
        rw [isFamilyHistoryData]
        simp [hguard]
      simp [hookImportFromBase64, him, hg]
  · intro raw ancs hdec hra hids hguard
    subst hdec
    have hany : (ancs.any (fun a => a.id = "")) = false := by
      apply Bool.eq_false_iff.mpr
      rw [Ne, List.any_eq_true]
      rintro ⟨a, hmem, ha⟩
      exact hids a hmem (by simpa using ha)
    have him : importFromBase64 (some (some raw)) now
        = some { ancestors := ancs, version := some CURRENT_DATA_VERSION,
                 createdAt := raw.createdAt, updatedAt := now } :=
      (importFromBase64_eq_some _ _ _).mpr ⟨raw, ancs, rfl, hra, hany, rfl⟩
    have hg : isFamilyHistoryData
        { ancestors := ancs, version := some CURRENT_DATA_VERSION,
          createdAt := raw.createdAt, updatedAt := now } = true := by
      rw [isFamilyHistoryData]
      simp [hguard]
    simp only [hookImportFromBase64, him, if_pos hg]

/-- C1 witness: the three-person generation of the concrete example is laid
out at x = 200, 400, 600. -/
theorem c1_layout_left_aligned_witness :
    ((familyTreeLayout [cexQ0, cexQ1, cexQ2, cexQ3]).nodes.filter
        (fun n => n.generation = 1)).map (fun n => n.x)
      = (List.range (genBucket [cexQ0, cexQ1, cexQ2, cexQ3] 1).length).map nodeX :=
  (c1_layout_left_aligned [cexQ0, cexQ1, cexQ2, cexQ3] 1 (by decide)).1

/-! ### `updateFirstWith` structure lemmas -/

theorem findById_updateFirstWith_self (l : List Ancestor) (pid : String)
    (f : Ancestor → Ancestor) (hf : ∀ a, (f a).id = a.id) :
    findById (updateFirstWith (fun a => a.id == pid) f l) pid = (findById l pid).map f := by
  induction l with
  | nil => rfl
  | cons a rest ih =>
    by_cases h : (a.id == pid) = true
    · rw [updateFirstWith, if_pos h]
      simp only [findById, List.find?]
      rw [hf a, h]
      rfl
    · have hb : (a.id == pid) = false := Bool.eq_false_iff.mpr h
      rw [updateFirstWith, if_neg h]
      simp only [findById, List.find?] at ih ⊢
      rw [hb]
      exact ih

theorem findById_updateFirstWith_other (l : List Ancestor) (pid pid' : String)
    (f : Ancestor → Ancestor) (hf : ∀ a, (f a).id = a.id) (hne : pid' ≠ pid) :
    findById (updateFirstWith (fun a => a.id == pid) f l) pid' = findById l pid' := by
  induction l with
  | nil => rfl
  | cons a rest ih =>
    by_cases h : (a.id == pid) = true
    · rw [updateFirstWith, if_pos h]
      have haid : a.id = pid := by simpa using h
      have h1 : ((f a).id == pid') = false := by
        rw [hf a, haid]
        simpa using fun he => hne he.symm
      have h2 : (a.id == pid') = false := by
        rw [haid]
        simpa using fun he => hne he.symm
      simp only [findById, List.find?]
      rw [h1, h2]
    · rw [updateFirstWith, if_neg h]
      by_cases h' : (a.id == pid') = true
      · simp only [findById, List.find?]
        rw [h']
      · have hb' : (a.id == pid') = false := Bool.eq_false_iff.mpr h'
        simp only [findById, List.find?] at ih ⊢
        rw [hb']
        exact ih

theorem updateFirstWith_of_none (l : List Ancestor) (pid : String)
    (f : Ancestor → Ancestor) (h : findById l pid = none) :
    updateFirstWith (fun a => a.id == pid) f l = l := by
  induction l with
  | nil => rfl
  | cons a rest ih =>
    simp only [findById, List.find?] at h
    by_cases hp : (a.id == pid) = true
    · rw [hp] at h
      cases h
    · have hb : (a.id == pid) = false := Bool.eq_false_iff.mpr hp
      rw [hb] at h
      rw [updateFirstWith, if_neg hp, ih h]

theorem updateFirstWith_of_fix (l : List Ancestor) (pid : String)
    (f : Ancestor → Ancestor) (b : Ancestor) (h : findById l pid = some b)
    (hb : f b = b) : updateFirstWith (fun a => a.id == pid) f l = l := by
  induction l with
  | nil => rfl
  | cons a rest ih =>
    simp only [findById, List.find?] at h
    by_cases hp : (a.id == pid) = true
    · rw [hp] at h
      cases h
      rw [updateFirstWith, if_pos hp, hb]
    · have hbp : (a.id == pid) = false := Bool.eq_false_iff.mpr hp
      rw [hbp] at h
      rw [updateFirstWith, if_neg hp, ih h]

theorem addReciprocalMarriage_id (cid : String) (e : LocationEvent) (now : Nat)
    (a : Ancestor) : (addReciprocalMarriage cid e now a).id = a.id := by
  dsimp only [addReciprocalMarriage]
  by_cases hg : ((a.marriages.getD []).any (fun m => m.partnerId = some cid)) = true
  · rw [if_pos hg]
  · rw [if_neg hg]

theorem addReciprocalDivorce_id (cid : String) (e : LocationEvent) (now : Nat)
    (a : Ancestor) : (addReciprocalDivorce cid e now a).id = a.id := by
  dsimp only [addReciprocalDivorce]
  by_cases hg : ((a.divorces.getD []).any (fun d => d.partnerId = some cid)) = true
  · rw [if_pos hg]
  · rw [if_neg hg]

/-- How one marriage-synchronization step may change a partner record:
divorces untouched, marriages only appended to, a stamped `updatedAt` stays
stamped. -/
def evolvesM (now : Nat) (b b' : Ancestor) : Prop :=
  b'.divorces = b.divorces
  ∧ (∀ m ∈ b.marriages.getD [], m ∈ b'.marriages.getD [])
  ∧ (∀ cid, ((b.marriages.getD []).any (fun m => m.partnerId = some cid)) = true →
      ((b'.marriages.getD []).any (fun m => m.partnerId = some cid)) = true)
  ∧ (b.updatedAt = now → b'.updatedAt = now)

/-- How one divorce-synchronization step may change a partner record. -/
def evolvesD (now : Nat) (b b' : Ancestor) : Prop :=
  b'.marriages = b.marriages
  ∧ (∀ d ∈ b.divorces.getD [], d ∈ b'.divorces.getD [])
  ∧ (∀ cid, ((b.divorces.getD []).any (fun d => d.partnerId = some cid)) = true →
      ((b'.divorces.getD []).any (fun d => d.partnerId = some cid)) = true)
  ∧ (b.updatedAt = now → b'.updatedAt = now)

theorem evolvesM_refl (now : Nat) (b : Ancestor) : evolvesM now b b :=
  ⟨rfl, fun _ h => h, fun _ h => h, fun h => h⟩

theorem evolvesD_refl (now : Nat) (b : Ancestor) : evolvesD now b b :=
  ⟨rfl, fun _ h => h, fun _ h => h, fun h => h⟩

theorem evolvesM_trans {now : Nat} {a b c : Ancestor}
    (h1 : evolvesM now a b) (h2 : evolvesM now b c) : evolvesM now a c :=
  ⟨h2.1.trans h1.1, fun m hm => h2.2.1 m (h1.2.1 m hm),
    fun cid h => h2.2.2.1 cid (h1.2.2.1 cid h), fun h => h2.2.2.2 (h1.2.2.2 h)⟩

theorem evolvesD_trans {now : Nat} {a b c : Ancestor}
    (h1 : evolvesD now a b) (h2 : evolvesD now b c) : evolvesD now a c :=
  ⟨h2.1.trans h1.1, fun m hm => h2.2.1 m (h1.2.1 m hm),
    fun cid h => h2.2.2.1 cid (h1.2.2.1 cid h), fun h => h2.2.2.2 (h1.2.2.2 h)⟩

theorem addReciprocalMarriage_evolves (cid : String) (e : LocationEvent) (now : Nat)
    (b : Ancestor) : evolvesM now b (addReciprocalMarriage cid e now b) := by
  dsimp only [addReciprocalMarriage]
  by_cases hg : ((b.marriages.getD []).any (fun m => m.partnerId = some cid)) = true
  · rw [if_pos hg]
    exact evolvesM_refl now b
  · rw [if_neg hg]
    refine ⟨rfl, ?_, ?_, fun _ => rfl⟩
    · intro m hm
      simp only [Option.getD_some]
      exact List.mem_append_left _ hm
    · intro cid' h
      simp only [Option.getD_some, List.any_append, h, Bool.true_or]

theorem addReciprocalDivorce_evolves (cid : String) (e : LocationEvent) (now : Nat)
    (b : Ancestor) : evolvesD now b (addReciprocalDivorce cid e now b) := by
  dsimp only [addReciprocalDivorce]
  by_cases hg : ((b.divorces.getD []).any (fun d => d.partnerId = some cid)) = true
  · rw [if_pos hg]
    exact evolvesD_refl now b
  · rw [if_neg hg]
    refine ⟨rfl, ?_, ?_, fun _ => rfl⟩
    · intro m hm
      simp only [Option.getD_some]
      exact List.mem_append_left _ hm
    · intro cid' h
      simp only [Option.getD_some, List.any_append, h, Bool.true_or]

theorem syncMarriage_evolves (l : List Ancestor) (cid : String) (e : LocationEvent)
    (now : Nat) (pid : String) (b : Ancestor) (hb : findById l pid = some b) :
    ∃ b', findById (syncMarriage l cid e now) pid = some b' ∧ evolvesM now b b' := by
  cases hp : e.partnerId with
  | none =>
    exact ⟨b, by simpa [syncMarriage, hp] using hb, evolvesM_refl now b⟩
  | some q =>
    by_cases hq : pid = q
    · subst hq
      refine ⟨addReciprocalMarriage cid e now b, ?_, addReciprocalMarriage_evolves cid e now b⟩
      simp only [syncMarriage, hp]
      rw [findById_updateFirstWith_self l pid _ (addReciprocalMarriage_id cid e now), hb,
        Option.map_some']
    · refine ⟨b, ?_, evolvesM_refl now b⟩
      simp only [syncMarriage, hp]
      rw [findById_updateFirstWith_other l q pid _ (addReciprocalMarriage_id cid e now) hq]
      exact hb

theorem syncDivorce_evolves (l : List Ancestor) (cid : String) (e : LocationEvent)
    (now : Nat) (pid : String) (b : Ancestor) (hb : findById l pid = some b) :
    ∃ b', findById (syncDivorce l cid e now) pid = some b' ∧ evolvesD now b b' := by
  cases hp : e.partnerId with
  | none =>
    exact ⟨b, by simpa [syncDivorce, hp] using hb, evolvesD_refl now b⟩
  | some q =>
    by_cases hq : pid = q
    · subst hq
      refine ⟨addReciprocalDivorce cid e now b, ?_, addReciprocalDivorce_evolves cid e now b⟩
      simp only [syncDivorce, hp]
      rw [findById_updateFirstWith_self l pid _ (addReciprocalDivorce_id cid e now), hb,
        Option.map_some']
    · refine ⟨b, ?_, evolvesD_refl now b⟩
      simp only [syncDivorce, hp]
      rw [findById_updateFirstWith_other l q pid _ (addReciprocalDivorce_id cid e now) hq]
      exact hb

theorem marriageFold_evolves (cid : String) (now : Nat) (E : List LocationEvent) :
    ∀ (l : List Ancestor) (pid : String) (b : Ancestor), findById l pid = some b →
      ∃ b', findById (E.foldl (fun acc ev => syncMarriage acc cid ev now) l) pid = some b'
        ∧ evolvesM now b b' := by
  induction E with
  | nil => exact fun l pid b hb => ⟨b, hb, evolvesM_refl now b⟩
  | cons e1 rest ih =>
    intro l pid b hb
    obtain ⟨b1, hb1, hev1⟩ := syncMarriage_evolves l cid e1 now pid b hb
    obtain ⟨b', hb', hev'⟩ := ih (syncMarriage l cid e1 now) pid b1 hb1
    exact ⟨b', hb', evolvesM_trans hev1 hev'⟩

theorem divorceFold_evolves (cid : String) (now : Nat) (E : List LocationEvent) :
    ∀ (l : List Ancestor) (pid : String) (b : Ancestor), findById l pid = some b →
      ∃ b', findById (E.foldl (fun acc ev => syncDivorce acc cid ev now) l) pid = some b'
        ∧ evolvesD now b b' := by
  induction E with
  | nil => exact fun l pid b hb => ⟨b, hb, evolvesD_refl now b⟩
  | cons e1 rest ih =>
    intro l pid b hb
    obtain ⟨b1, hb1, hev1⟩ := syncDivorce_evolves l cid e1 now pid b hb
    obtain ⟨b', hb', hev'⟩ := ih (syncDivorce l cid e1 now) pid b1 hb1
    exact ⟨b', hb', evolvesD_trans hev1 hev'⟩

theorem syncMarriage_recip (l : List Ancestor) (cid : String) (e : LocationEvent)
    (now : Nat) (pid : String) (b : Ancestor) (he : e.partnerId = some pid)
    (hb : findById l pid = some b) :
    ∃ b', findById (syncMarriage l cid e now) pid = some b'
      ∧ ((b'.marriages.getD []).any (fun m => m.partnerId = some cid)) = true
      ∧ (((b.marriages.getD []).any (fun m => m.partnerId = some cid)) = false →
          b'.updatedAt = now ∧ { e with partnerId := some cid } ∈ b'.marriages.getD []) := by
  have hself : findById (syncMarriage l cid e now) pid
      = some (addReciprocalMarriage cid e now b) := by
    simp only [syncMarriage, he]
    rw [findById_updateFirstWith_self l pid _ (addReciprocalMarriage_id cid e now), hb,
      Option.map_some']
  refine ⟨addReciprocalMarriage cid e now b, hself, ?_, ?_⟩
  · dsimp only [addReciprocalMarriage]
    by_cases hg : ((b.marriages.getD []).any (fun m => m.partnerId = some cid)) = true
    · rw [if_pos hg]
      exact hg
    · rw [if_neg hg]
      simp only [Option.getD_some, List.any_append]
      simp
  · intro hg0
    have hg : ¬((b.marriages.getD []).any (fun m => m.partnerId = some cid)) = true := by
      rw [hg0]
      simp
    dsimp only [addReciprocalMarriage]
    rw [if_neg hg]
    refine ⟨rfl, ?_⟩
    simp only [Option.getD_some]
    exact List.mem_append_right _ (List.mem_singleton_self _)

theorem syncDivorce_recip (l : List Ancestor) (cid : String) (e : LocationEvent)
    (now : Nat) (pid : String) (b : Ancestor) (he : e.partnerId = some pid)
    (hb : findById l pid = some b) :
    ∃ b', findById (syncDivorce l cid e now) pid = some b'
      ∧ ((b'.divorces.getD []).any (fun d => d.partnerId = some cid)) = true
      ∧ (((b.divorces.getD []).any (fun d => d.partnerId = some cid)) = false →
          b'.updatedAt = now ∧ { e with partnerId := some cid } ∈ b'.divorces.getD []) := by
  have hself : findById (syncDivorce l cid e now) pid
      = some (addReciprocalDivorce cid e now b) := by
    simp only [syncDivorce, he]
    rw [findById_updateFirstWith_self l pid _ (addReciprocalDivorce_id cid e now), hb,
      Option.map_some']
  refine ⟨addReciprocalDivorce cid e now b, hself, ?_, ?_⟩
  · dsimp only [addReciprocalDivorce]
    by_cases hg : ((b.divorces.getD []).any (fun d => d.partnerId = some cid)) = true
    · rw [if_pos hg]
      exact hg
    · rw [if_neg hg]
      simp only [Option.getD_some, List.any_append]
      simp
  · intro hg0
    have hg : ¬((b.divorces.getD []).any (fun d => d.partnerId = some cid)) = true := by
      rw [hg0]
      simp
    dsimp only [addReciprocalDivorce]
    rw [if_neg hg]
    refine ⟨rfl, ?_⟩
    simp only [Option.getD_some]
    exact List.mem_append_right _ (List.mem_singleton_self _)

theorem syncMarriage_keeps (l : List Ancestor) (cid : String) (e : LocationEvent)
    (now : Nat) (pid : String) (hne : e.partnerId ≠ some pid) :
    findById (syncMarriage l cid e now) pid = findById l pid := by
  cases hp : e.partnerId with
  | none => simp [syncMarriage, hp]
  | some q =>
    have hq : pid ≠ q := fun hh => hne (by rw [hp, hh])
    simp only [syncMarriage, hp]
    exact findById_updateFirstWith_other l q pid _ (addReciprocalMarriage_id cid e now) hq

theorem syncDivorce_keeps (l : List Ancestor) (cid : String) (e : LocationEvent)
    (now : Nat) (pid : String) (hne : e.partnerId ≠ some pid) :
    findById (syncDivorce l cid e now) pid = findById l pid := by
  cases hp : e.partnerId with
  | none => simp [syncDivorce, hp]
  | some q =>
    have hq : pid ≠ q := fun hh => hne (by rw [hp, hh])
    simp only [syncDivorce, hp]
    exact findById_updateFirstWith_other l q pid _ (addReciprocalDivorce_id cid e now) hq

theorem marriageFold_recip (cid : String) (now : Nat) (E : List LocationEvent) :
    ∀ (l : List Ancestor) (e : LocationEvent) (pid : String) (b0 : Ancestor),
      e ∈ E → e.partnerId = some pid → findById l pid = some b0 →
      ∃ b, findById (E.foldl (fun acc ev => syncMarriage acc cid ev now) l) pid = some b
        ∧ ((b.marriages.getD []).any (fun m => m.partnerId = some cid)) = true
        ∧ (((b0.marriages.getD []).any (fun m => m.partnerId = some cid)) = false →
            b.updatedAt = now
            ∧ ∃ e0 ∈ E, e0.partnerId = some pid
                ∧ { e0 with partnerId := some cid } ∈ b.marriages.getD []) := by
  induction E with
  | nil => intro l e pid b0 hmem; cases hmem
  | cons e1 rest ih =>
    intro l e pid b0 hmem hepid hb0
    rw [List.foldl_cons]
    by_cases he1 : e1.partnerId = some pid
    · obtain ⟨b1, hb1, hany1, hcond1⟩ := syncMarriage_recip l cid e1 now pid b0 he1 hb0
      obtain ⟨b, hb, hev⟩ := marriageFold_evolves cid now rest _ pid b1 hb1
      refine ⟨b, hb, hev.2.2.1 cid hany1, ?_⟩
      intro h0
      obtain ⟨hupd, hmemb⟩ := hcond1 h0
      exact ⟨hev.2.2.2 hupd, e1, List.mem_cons_self _ _, he1, hev.2.1 _ hmemb⟩
    · have hkeep : findById (syncMarriage l cid e1 now) pid = some b0 := by
        rw [syncMarriage_keeps l cid e1 now pid he1]
        exact hb0
      have hrest : e ∈ rest := by
        rcases List.mem_cons.mp hmem with rfl | h
        · exact absurd hepid he1
        · exact h
      obtain ⟨b, hb, hany, hcond⟩ := ih _ e pid b0 hrest hepid hkeep
      refine ⟨b, hb, hany, fun h0 => ?_⟩
      obtain ⟨hupd, e0, he0mem, he0pid, hc⟩ := hcond h0
      exact ⟨hupd, e0, List.mem_cons_of_mem _ he0mem, he0pid, hc⟩

theorem divorceFold_recip (cid : String) (now : Nat) (E : List LocationEvent) :
    ∀ (l : List Ancestor) (e : LocationEvent) (pid : String) (b0 : Ancestor),
      e ∈ E → e.partnerId = some pid → findById l pid = some b0 →
      ∃ b, findById (E.foldl (fun acc ev => syncDivorce acc cid ev now) l) pid = some b
        ∧ ((b.divorces.getD []).any (fun d => d.partnerId = some cid)) = true
        ∧ (((b0.divorces.getD []).any (fun d => d.partnerId = some cid)) = false →
            b.updatedAt = now
            ∧ ∃ e0 ∈ E, e0.partnerId = some pid
                ∧ { e0 with partnerId := some cid } ∈ b.divorces.getD []) := by
  induction E with
  | nil => intro l e pid b0 hmem; cases hmem
  | cons e1 rest ih =>
    intro l e pid b0 hmem hepid hb0
    rw [List.foldl_cons]
    by_cases he1 : e1.partnerId = some pid
    · obtain ⟨b1, hb1, hany1, hcond1⟩ := syncDivorce_recip l cid e1 now pid b0 he1 hb0
      obtain ⟨b, hb, hev⟩ := divorceFold_evolves cid now rest _ pid b1 hb1
      refine ⟨b, hb, hev.2.2.1 cid hany1, ?_⟩
      intro h0
      obtain ⟨hupd, hmemb⟩ := hcond1 h0
      exact ⟨hev.2.2.2 hupd, e1, List.mem_cons_self _ _, he1, hev.2.1 _ hmemb⟩
    · have hkeep : findById (syncDivorce l cid e1 now) pid = some b0 := by
        rw [syncDivorce_keeps l cid e1 now pid he1]
        exact hb0
      have hrest : e ∈ rest := by
        rcases List.mem_cons.mp hmem with rfl | h
        · exact absurd hepid he1
        · exact h
      obtain ⟨b, hb, hany, hcond⟩ := ih _ e pid b0 hrest hepid hkeep
      refine ⟨b, hb, hany, fun h0 => ?_⟩
      obtain ⟨hupd, e0, he0mem, he0pid, hc⟩ := hcond h0
      exact ⟨hupd, e0, List.mem_cons_of_mem _ he0mem, he0pid, hc⟩

def cexP : Ancestor :=
  { id := "P", generation := 0,
    marriages := some [{ date := some { year := some 1990 }, partnerId := some "B" }] }

def cexPartnerB : Ancestor :=
  { id := "B", generation := 0,
    marriages := some [{ date := some { year := some 1980 }, partnerId := some "P" }] }

/-- C2 counterexample: `cexPartnerB` already holds a reciprocal marriage
(with a different date), so the Synchronizer — whose guard is keyed only on
`partnerId` — appends nothing and stamps nothing: after the operation the
partner holds no copy of `cexP`'s event with the partnerId swapped, and its
`updatedAt` is not stamped, contradicting the claim's unconditional
copy-and-stamp. -/
theorem c2_counterexample :
    updateBidirectionalRelationships [cexP, cexPartnerB] cexP 55 = [cexP, cexPartnerB]
    ∧ ({ date := some { year := some 1990 }, partnerId := some "P" } : LocationEvent)
        ∉ cexPartnerB.marriages.getD []
    ∧ cexPartnerB.updatedAt ≠ 55 := by decide

/-- C2 amended: after the Synchronizer runs for a changed Person P, every
marriage (resp. divorce) Event of P carrying a `partnerId` that resolves to
a Person in the collection has a reciprocal Event of the same kind on that
partner (`partnerId` pointing back at P); when the partner did not already
hold such a reciprocal Event, the reciprocal is a copy of one of P's Events
for that partner with `partnerId` swapped to P's id, and the partner's
`updatedAt` has been stamped. A partner that already held a reciprocal Event
of that kind is left without a new copy and without a stamp. -/
theorem c2_sync_reciprocal (l : List Ancestor) (changed : Ancestor) (now : Nat)
    (e : LocationEvent) (pid : String) (p0 : Ancestor) :
    (e ∈ changed.marriages.getD [] → e.partnerId = some pid →
      findById l pid = some p0 →
      ∃ b, findById (updateBidirectionalRelationships l changed now) pid = some b
        ∧ ((b.marriages.getD []).any (fun m => m.partnerId = some changed.id)) = true
        ∧ (((p0.marriages.getD []).any (fun m => m.partnerId = some changed.id)) = false →
            b.updatedAt = now
            ∧ ∃ e0 ∈ changed.marriages.getD [], e0.partnerId = some pid
                ∧ { e0 with partnerId := some changed.id } ∈ b.marriages.getD []))
    ∧ (e ∈ changed.divorces.getD [] → e.partnerId = some pid →
      findById l pid = some p0 →
      ∃ b, findById (updateBidirectionalRelationships l changed now) pid = some b
        ∧ ((b.divorces.getD []).any (fun d => d.partnerId = some changed.id)) = true
        ∧ (((p0.divorces.getD []).any (fun d => d.partnerId = some changed.id)) = false →
            b.updatedAt = now
            ∧ ∃ e0 ∈ changed.divorces.getD [], e0.partnerId = some pid
                ∧ { e0 with partnerId := some changed.id } ∈ b.divorces.getD [])) := by
  constructor
  · intro hmem hepid hp0
    obtain ⟨b1, hb1, hany1, hcond1⟩ :=
      marriageFold_recip changed.id now (changed.marriages.getD []) l e pid p0 hmem hepid hp0
    obtain ⟨b, hb, hev⟩ :=
      divorceFold_evolves changed.id now (changed.divorces.getD []) _ pid b1 hb1
    refine ⟨b, ?_, ?_, ?_⟩
    · exact hb
    · rw [hev.1]
      exact hany1
    · intro h0
      obtain ⟨hupd, e0, he0mem, he0pid, hc⟩ := hcond1 h0
      refine ⟨hev.2.2.2 hupd, e0, he0mem, he0pid, ?_⟩
      rw [hev.1]
      exact hc
  · intro hmem hepid hp0
    obtain ⟨b1, hb1, hevM⟩ :=
      marriageFold_evolves changed.id now (changed.marriages.getD []) l pid p0 hp0
    obtain ⟨b, hb, hany, hcond⟩ :=
      divorceFold_recip changed.id now (changed.divorces.getD []) _ e pid b1 hmem hepid hb1
    refine ⟨b, hb, hany, ?_⟩
    intro h0
    apply hcond
    rw [hevM.1]
    exact h0

/-- A collection in which every marriage/divorce Event of `c` that carries a
`partnerId` resolving to a Person already has its reciprocal entry on that
partner. -/
def syncConsistent (l : List Ancestor) (c : Ancestor) : Prop :=
  (∀ e ∈ c.marriages.getD [], ∀ pid, e.partnerId = some pid →
    ∀ b, findById l pid = some b →
      ((b.marriages.getD []).any (fun m => m.partnerId = some c.id)) = true)
  ∧ (∀ e ∈ c.divorces.getD [], ∀ pid, e.partnerId = some pid →
    ∀ b, findById l pid = some b →
      ((b.divorces.getD []).any (fun d => d.partnerId = some c.id)) = true)

theorem addReciprocalMarriage_of_guard (cid : String) (e : LocationEvent) (now : Nat)
    (b : Ancestor)
    (hg : ((b.marriages.getD []).any (fun m => m.partnerId = some cid)) = true) :
    addReciprocalMarriage cid e now b = b := by
  dsimp only [addReciprocalMarriage]
  rw [if_pos hg]

theorem addReciprocalDivorce_of_guard (cid : String) (e : LocationEvent) (now : Nat)
    (b : Ancestor)
    (hg : ((b.divorces.getD []).any (fun d => d.partnerId = some cid)) = true) :
    addReciprocalDivorce cid e now b = b := by
  dsimp only [addReciprocalDivorce]
  rw [if_pos hg]

theorem syncMarriage_of_consistent (l : List Ancestor) (cid : String)
    (e : LocationEvent) (now : Nat)
    (h : ∀ pid, e.partnerId = some pid → ∀ b, findById l pid = some b →
      ((b.marriages.getD []).any (fun m => m.partnerId = some cid)) = true) :
    syncMarriage l cid e now = l := by
  cases hp : e.partnerId with
  | none => simp [syncMarriage, hp]
  | some pid =>
    simp only [syncMarriage, hp]
    cases hf : findById l pid with
    | none => exact updateFirstWith_of_none l pid _ hf
    | some b =>
      exact updateFirstWith_of_fix l pid _ b hf
        (addReciprocalMarriage_of_guard cid e now b (h pid hp b hf))

theorem syncDivorce_of_consistent (l : List Ancestor) (cid : String)
    (e : LocationEvent) (now : Nat)
    (h : ∀ pid, e.partnerId = some pid → ∀ b, findById l pid = some b →
      ((b.divorces.getD []).any (fun d => d.partnerId = some cid)) = true) :
    syncDivorce l cid e now = l := by
  cases hp : e.partnerId with
  | none => simp [syncDivorce, hp]
  | some pid =>
    simp only [syncDivorce, hp]
    cases hf : findById l pid with
    | none => exact updateFirstWith_of_none l pid _ hf
    | some b =>
      exact updateFirstWith_of_fix l pid _ b hf
        (addReciprocalDivorce_of_guard cid e now b (h pid hp b hf))

theorem marriageFold_of_consistent (cid : String) (now : Nat) (E : List LocationEvent)
    (l : List Ancestor)
    (h : ∀ e ∈ E, ∀ pid, e.partnerId = some pid → ∀ b, findById l pid = some b →
      ((b.marriages.getD []).any (fun m => m.partnerId = some cid)) = true) :
    E.foldl (fun acc ev => syncMarriage acc cid ev now) l = l := by
  induction E with
  | nil => rfl
  | cons e1 rest ih =>
    rw [List.foldl_cons,
      syncMarriage_of_consistent l cid e1 now (h e1 (List.mem_cons_self _ _))]
    exact ih (fun e hmem => h e (List.mem_cons_of_mem _ hmem))

theorem divorceFold_of_consistent (cid : String) (now : Nat) (E : List LocationEvent)
    (l : List Ancestor)
    (h : ∀ e ∈ E, ∀ pid, e.partnerId = some pid → ∀ b, findById l pid = some b →
      ((b.divorces.getD []).any (fun d => d.partnerId = some cid)) = true) :
    E.foldl (fun acc ev => syncDivorce acc cid ev now) l = l := by
  induction E with
  | nil => rfl
  | cons e1 rest ih =>
    rw [List.foldl_cons,
      syncDivorce_of_consistent l cid e1 now (h e1 (List.mem_cons_self _ _))]
    exact ih (fun e hmem => h e (List.mem_cons_of_mem _ hmem))

theorem updateBidir_of_consistent (l : List Ancestor) (c : Ancestor) (now : Nat)
    (h : syncConsistent l c) : updateBidirectionalRelationships l c now = l := by
  unfold updateBidirectionalRelationships
  rw [marriageFold_of_consistent c.id now _ l (fun e hmem => h.1 e hmem)]
  exact divorceFold_of_consistent c.id now _ l (fun e hmem => h.2 e hmem)

theorem syncMarriage_none (l : List Ancestor) (cid : String) (e : LocationEvent)
    (now : Nat) (pid : String) (h : findById l pid = none) :
    findById (syncMarriage l cid e now) pid = none := by
  cases hp : e.partnerId with
  | none => simpa [syncMarriage, hp] using h
  | some q =>
    simp only [syncMarriage, hp]
    by_cases hq : pid = q
    · subst hq
      rw [findById_updateFirstWith_self l pid _ (addReciprocalMarriage_id cid e now), h]
      rfl
    · rw [findById_updateFirstWith_other l q pid _ (addReciprocalMarriage_id cid e now) hq]
      exact h

theorem syncDivorce_none (l : List Ancestor) (cid : String) (e : LocationEvent)
    (now : Nat) (pid : String) (h : findById l pid = none) :
    findById (syncDivorce l cid e now) pid = none := by
  cases hp : e.partnerId with
  | none => simpa [syncDivorce, hp] using h
  | some q =>
    simp only [syncDivorce, hp]
    by_cases hq : pid = q
    · subst hq
      rw [findById_updateFirstWith_self l pid _ (addReciprocalDivorce_id cid e now), h]
      rfl
    · rw [findById_updateFirstWith_other l q pid _ (addReciprocalDivorce_id cid e now) hq]
      exact h

theorem updateBidir_none (l : List Ancestor) (c : Ancestor) (now : Nat) (pid : String)
    (h : findById l pid = none) :
    findById (updateBidirectionalRelationships l c now) pid = none := by
  unfold updateBidirectionalRelationships
  have hM : ∀ (E : List LocationEvent) (l' : List Ancestor),
      findById l' pid = none →
      findById (E.foldl (fun acc ev => syncMarriage acc c.id ev now) l') pid = none := by
    intro E
    induction E with
    | nil => exact fun l' h' => h'
    | cons e1 rest ih =>
      intro l' h'
      rw [List.foldl_cons]
      exact ih _ (syncMarriage_none l' c.id e1 now pid h')
  have hD : ∀ (E : List LocationEvent) (l' : List Ancestor),
      findById l' pid = none →
      findById (E.foldl (fun acc ev => syncDivorce acc c.id ev now) l') pid = none := by
    intro E
    induction E with
    | nil => exact fun l' h' => h'
    | cons e1 rest ih =>
      intro l' h'
      rw [List.foldl_cons]
      exact ih _ (syncDivorce_none l' c.id e1 now pid h')
  exact hD _ _ (hM _ _ h)

theorem updateBidir_consistent_after (l : List Ancestor) (c : Ancestor) (now : Nat) :
    syncConsistent (updateBidirectionalRelationships l c now) c := by
  constructor
  · intro e hmem pid hepid b hfind
    cases hf0 : findById l pid with
    | none =>
      rw [updateBidir_none l c now pid hf0] at hfind
      cases hfind
    | some p0 =>
      obtain ⟨b1, hb1, hany1, _⟩ :=
        marriageFold_recip c.id now (c.marriages.getD []) l e pid p0 hmem hepid hf0
      obtain ⟨b', hb', hev⟩ :=
        divorceFold_evolves c.id now (c.divorces.getD []) _ pid b1 hb1
      have hbb : b = b' := by
        have : some b = some b' := by
          rw [← hfind, ← hb']
          rfl
        exact Option.some_injective _ this
      subst hbb
      rw [hev.1]
      exact hany1
  · intro e hmem pid hepid b hfind
    cases hf0 : findById l pid with
    | none =>
      rw [updateBidir_none l c now pid hf0] at hfind
      cases hfind
    | some p0 =>
      obtain ⟨b1, hb1, _⟩ :=
        marriageFold_evolves c.id now (c.marriages.getD []) l pid p0 hf0
      obtain ⟨b', hb', hany, _⟩ :=
        divorceFold_recip c.id now (c.divorces.getD []) _ e pid b1 hmem hepid hb1
      have hbb : b = b' := by
        have : some b = some b' := by
          rw [← hfind, ← hb']
          rfl
        exact Option.some_injective _ this
      subst hbb
      exact hany

/-- C6: the Relationship Synchronizer is idempotent: over an
already-consistent collection it returns the collection unchanged, and in
particular running it a second time on its own output (for the same changed
Person) changes nothing — no duplicate reciprocal Event is ever appended. -/
theorem c6_sync_idempotent :
    (∀ (l : List Ancestor) (c : Ancestor) (now : Nat),
      syncConsistent l c → updateBidirectionalRelationships l c now = l)
    ∧ (∀ (l : List Ancestor) (c : Ancestor) (now now' : Nat),
      updateBidirectionalRelationships (updateBidirectionalRelationships l c now) c now'
        = updateBidirectionalRelationships l c now) :=
  ⟨updateBidir_of_consistent,
    fun l c now now' =>
      updateBidir_of_consistent _ c now' (updateBidir_consistent_after l c now)⟩

/-! ### Claim C7: the ancestor walk -/

/-- One upward step of the parent graph: `b` is a parent record of `a`,
resolved through `findById` exactly as the walk resolves it. -/
def parentStep (l : List Ancestor) (a b : Ancestor) : Prop :=
  ∃ pid ∈ a.parentIds.getD [], findById l pid = some b

/-- `caId` is reachable from `person` via transitive `parentIds`: some
record reachable by zero or more parent steps lists `caId` among its
parents. -/
def ancReachable (l : List Ancestor) (caId : String) (person : Ancestor) : Prop :=
  ∃ b, Relation.ReflTransGen (parentStep l) person b ∧ caId ∈ b.parentIds.getD []

/-- The parent graph has no cycle. -/
def ancAcyclic (l : List Ancestor) : Prop :=
  ∀ a, ¬ Relation.TransGen (parentStep l) a a

theorem findById_mem {l : List Ancestor} {pid : String} {b : Ancestor}
    (h : findById l pid = some b) : b ∈ l :=
  List.mem_of_find?_eq_some h

theorem findById_id {l : List Ancestor} {pid : String} {b : Ancestor}
    (h : findById l pid = some b) : b.id = pid := by
  have := List.find?_some h
  simpa using this

theorem findById_self {l : List Ancestor} {pid : String} {b : Ancestor}
    (h : findById l pid = some b) : findById l b.id = some b := by
  rw [findById_id h]
  exact h

theorem loop_visited_sub (l : List Ancestor)
    (step : Ancestor → List String → Bool × List String)
    (hstep : ∀ p v, ∀ x ∈ v, x ∈ (step p v).2) :
    ∀ (pids : List String) (v : List String), ∀ x ∈ v,
      x ∈ (isAncestorOfLoop l step pids v).2 := by
  intro pids
  induction pids with
  | nil => exact fun v x hx => hx
  | cons pid rest ih =>
    intro v x hx
    rw [isAncestorOfLoop]
    cases hf : findById l pid with
    | none =>
      dsimp only
      exact ih v x hx
    | some parent =>
      dsimp only
      cases hs : step parent v with
      | mk b v2 =>
        have hx2 : x ∈ v2 := by
          have hh := hstep parent v x hx
          rw [hs] at hh
          exact hh
        cases b with
        | true => exact hx2
        | false =>
          dsimp only
          exact ih v2 x hx2

theorem aux_visited_sub (paId : String) (l : List Ancestor) :
    ∀ (fuel : Nat) (p : Ancestor) (v : List String), ∀ x ∈ v,
      x ∈ (isAncestorOfAux paId l fuel p v).2 := by
  intro fuel
  induction fuel with
  | zero => exact fun p v x hx => hx
  | succ f ih =>
    intro p v x hx
    rw [isAncestorOfAux]
    by_cases hv : p.id ∈ v
    · rw [if_pos hv]
      exact hx
    rw [if_neg hv]
    dsimp only
    by_cases hinc : paId ∈ p.parentIds.getD []
    · rw [if_pos hinc]
      exact List.mem_cons_of_mem _ hx
    rw [if_neg hinc]
    exact loop_visited_sub l _ (fun p' v' => ih p' v') _ _ x
      (List.mem_cons_of_mem _ hx)

theorem loop_sound (l : List Ancestor) (caId : String)
    (step : Ancestor → List String → Bool × List String)
    (hstep : ∀ p v, (step p v).1 = true → ancReachable l caId p) :
    ∀ (pids : List String) (v : List String),
      (isAncestorOfLoop l step pids v).1 = true →
      ∃ pid ∈ pids, ∃ parent, findById l pid = some parent
        ∧ ancReachable l caId parent := by
  intro pids
  induction pids with
  | nil => intro v h; cases h
  | cons pid rest ih =>
    intro v h
    rw [isAncestorOfLoop] at h
    cases hf : findById l pid with
    | none =>
      rw [hf] at h
      dsimp only at h
      obtain ⟨pid', hmem, parent, hfind, halive⟩ := ih v h
      exact ⟨pid', List.mem_cons_of_mem _ hmem, parent, hfind, halive⟩
    | some parent =>
      rw [hf] at h
      dsimp only at h
      cases hs : step parent v with
      | mk b v2 =>
        rw [hs] at h
        cases b with
        | true =>
          exact ⟨pid, List.mem_cons_self _ _, parent, hf,
            hstep parent v (by rw [hs])⟩
        | false =>
          dsimp only at h
          obtain ⟨pid', hmem, parent', hfind, halive⟩ := ih v2 h
          exact ⟨pid', List.mem_cons_of_mem _ hmem, parent', hfind, halive⟩

theorem aux_sound (caId : String) (l : List Ancestor) :
    ∀ (fuel : Nat) (p : Ancestor) (v : List String),
      (isAncestorOfAux caId l fuel p v).1 = true → ancReachable l caId p := by
  intro fuel
  induction fuel with
  | zero => intro p v h; cases h
  | succ f ih =>
    intro p v h
    rw [isAncestorOfAux] at h
    by_cases hv : p.id ∈ v
    · rw [if_pos hv] at h
      cases h
    rw [if_neg hv] at h
    dsimp only at h
    by_cases hinc : caId ∈ p.parentIds.getD []
    · exact ⟨p, Relation.ReflTransGen.refl, hinc⟩
    rw [if_neg hinc] at h
    obtain ⟨pid, hmem, parent, hfind, b, hrtg, hb⟩ :=
      loop_sound l caId _ (fun p' v' => ih p' v') _ _ h
    exact ⟨b, Relation.ReflTransGen.head ⟨pid, hmem, hfind⟩ hrtg, hb⟩

/-- The ids present in the collection. -/
def lids (l : List Ancestor) : Finset String := (l.map (fun a => a.id)).toFinset

/-- The collection ids not yet visited. -/
def unseen (l : List Ancestor) (v : List String) : Finset String :=
  lids l \ v.toFinset

/-- Termination measure of a walk state: twice the unvisited ids, plus an
entry fee depending on whether the current person is already visited and
whether it belongs to the collection. -/
def ancMeasure (l : List Ancestor) (p : Ancestor) (v : List String) : Nat :=
  2 * (unseen l v).card + (if p.id ∈ v then 0 else if p.id ∈ lids l then 1 else 2)

theorem ancMeasure_le (l : List Ancestor) (p : Ancestor) (v : List String) :
    ancMeasure l p v ≤ 2 * l.length + 2 := by
  have h1 : (unseen l v).card ≤ (lids l).card :=
    Finset.card_le_card (Finset.sdiff_subset)
  have h2 : (lids l).card ≤ l.length := by
    calc (lids l).card ≤ (l.map (fun a => a.id)).length := List.toFinset_card_le _
    _ = l.length := List.length_map _ _
  unfold ancMeasure
  split_ifs <;> omega

theorem unseen_anti {l : List Ancestor} {v v' : List String}
    (h : ∀ x ∈ v, x ∈ v') : unseen l v' ⊆ unseen l v := by
  apply Finset.sdiff_subset_sdiff (le_refl _)
  intro x hx
  rw [List.mem_toFinset] at hx ⊢
  exact h x hx

theorem ancMeasure_decrease (l : List Ancestor) (p parent : Ancestor)
    (v v'' : List String) (hpv : p.id ∉ v)
    (hsub : ∀ x ∈ p.id :: v, x ∈ v'') (hparent : parent ∈ l) :
    ancMeasure l parent v'' < ancMeasure l p v := by
  have hvsub : ∀ x ∈ v, x ∈ v'' := fun x hx => hsub x (List.mem_cons_of_mem _ hx)
  have hPin : p.id ∈ v'' := hsub _ (List.mem_cons_self _ _)
  have hsubF : unseen l v'' ⊆ unseen l v := unseen_anti hvsub
  have hparent_lids : parent.id ∈ lids l := by
    rw [lids, List.mem_toFinset]
    exact List.mem_map_of_mem _ hparent
  have haddp : (if parent.id ∈ v'' then 0 else if parent.id ∈ lids l then 1 else 2) ≤ 1 := by
    split_ifs <;> omega
  by_cases hpl : p.id ∈ lids l
  · have hPinS : p.id ∈ unseen l v := by
      rw [unseen, Finset.mem_sdiff, List.mem_toFinset]
      exact ⟨hpl, hpv⟩
    have hdrop : (unseen l v'').card < (unseen l v).card := by
      have hss : unseen l v'' ⊆ (unseen l v).erase p.id := by
        intro x hx
        rw [Finset.mem_erase]
        refine ⟨?_, hsubF hx⟩
        intro hxe
        subst hxe
        rw [unseen, Finset.mem_sdiff, List.mem_toFinset] at hx
        exact hx.2 hPin
      calc (unseen l v'').card ≤ ((unseen l v).erase p.id).card :=
            Finset.card_le_card hss
      _ < (unseen l v).card := Finset.card_erase_lt_of_mem hPinS
    unfold ancMeasure
    rw [if_neg hpv, if_pos hpl]
    omega
  · have hle : (unseen l v'').card ≤ (unseen l v).card := Finset.card_le_card hsubF
    unfold ancMeasure
    rw [if_neg hpv, if_neg hpl]
    omega

theorem loop_congr (l : List Ancestor)
    (step1 step2 : Ancestor → List String → Bool × List String)
    (hpres1 : ∀ p v, ∀ x ∈ v, x ∈ (step1 p v).2) :
    ∀ (pids : List String) (v : List String),
      (∀ pid ∈ pids, ∀ parent, findById l pid = some parent →
        ∀ v', (∀ x ∈ v, x ∈ v') → step1 parent v' = step2 parent v') →
      isAncestorOfLoop l step1 pids v = isAncestorOfLoop l step2 pids v := by
  intro pids
  induction pids with
  | nil => intro v _; rfl
  | cons pid rest ih =>
    intro v hcong
    rw [isAncestorOfLoop, isAncestorOfLoop]
    cases hf : findById l pid with
    | none =>
      dsimp only
      exact ih v (fun pid' hmem => hcong pid' (List.mem_cons_of_mem _ hmem))
    | some parent =>
      dsimp only
      have hstep_eq : step1 parent v = step2 parent v :=
        hcong pid (List.mem_cons_self _ _) parent hf v (fun x hx => hx)
      rw [← hstep_eq]
      cases hs : step1 parent v with
      | mk b v2 =>
        have hv2 : ∀ x ∈ v, x ∈ v2 := by
          intro x hx
          have hh := hpres1 parent v x hx
          rw [hs] at hh
          exact hh
        cases b with
        | true => rfl
        | false =>
          dsimp only
          exact ih v2 (fun pid' hmem parent' hf' v' hsub =>
            hcong pid' (List.mem_cons_of_mem _ hmem) parent' hf' v'
              (fun x hx => hsub x (hv2 x hx)))

theorem aux_fuel_stable (caId : String) (l : List Ancestor) :
    ∀ (n f1 f2 : Nat) (p : Ancestor) (v : List String),
      ancMeasure l p v ≤ n → n < f1 → n < f2 →
      isAncestorOfAux caId l f1 p v = isAncestorOfAux caId l f2 p v := by
  intro n
  induction n using Nat.strong_induction_on with
  | _ n ih =>
    intro f1 f2 p v hmu hf1 hf2
    cases f1 with
    | zero => omega
    | succ f1' =>
      cases f2 with
      | zero => omega
      | succ f2' =>
        rw [isAncestorOfAux, isAncestorOfAux]
        by_cases hv : p.id ∈ v
        · rw [if_pos hv, if_pos hv]
        rw [if_neg hv, if_neg hv]
        dsimp only
        by_cases hinc : caId ∈ p.parentIds.getD []
        · rw [if_pos hinc, if_pos hinc]
        rw [if_neg hinc, if_neg hinc]
        apply loop_congr l _ _ (fun p' v' => aux_visited_sub caId l f1' p' v')
        intro pid _hmem parent hfind v' hsub
        have hdec : ancMeasure l parent v' < ancMeasure l p v :=
          ancMeasure_decrease l p parent v v' hv hsub (findById_mem hfind)
        exact ih (ancMeasure l parent v')
          (by omega) f1' f2' parent v' (le_refl _) (by omega) (by omega)

/-- A visited id is exhausted: whatever record it resolves to cannot reach
the candidate. -/
def deadAt (l : List Ancestor) (caId x : String) : Prop :=
  ∀ a, findById l x = some a → ¬ ancReachable l caId a

/-- Invariant on the visited set at entry to a walk on `p`: every visited id
resolves to a record that is either exhausted or strictly above `p` on the
current search path. -/
def vinvStrict (l : List Ancestor) (caId : String) (v : List String) (p : Ancestor) : Prop :=
  ∀ x ∈ v, ∀ a, findById l x = some a →
    ¬ ancReachable l caId a ∨ Relation.TransGen (parentStep l) a p

theorem loop_complete (caId : String) (l : List Ancestor) (p : Ancestor)
    (step : Ancestor → List String → Bool × List String) (vbase : List String)
    (hp : findById l p.id = some p)
    (hpres : ∀ p' v', ∀ x ∈ v', x ∈ (step p' v').2)
    (hspec : ∀ pid parent v', findById l pid = some parent →
      (∀ x ∈ vbase, x ∈ v') → vinvStrict l caId v' parent →
      ((step parent v').1 = false →
        ¬ ancReachable l caId parent
        ∧ ∀ x ∈ (step parent v').2, x ∈ v' ∨ deadAt l caId x)) :
    ∀ (pids : List String) (v' : List String),
      (∀ pid ∈ pids, pid ∈ p.parentIds.getD []) →
      (∀ x ∈ vbase, x ∈ v') →
      (∀ x ∈ v', x = p.id ∨ ∀ a, findById l x = some a →
        ¬ ancReachable l caId a ∨ Relation.TransGen (parentStep l) a p) →
      (isAncestorOfLoop l step pids v').1 = false →
      (∀ pid ∈ pids, ∀ parent, findById l pid = some parent →
        ¬ ancReachable l caId parent)
      ∧ ∀ x ∈ (isAncestorOfLoop l step pids v').2, x ∈ v' ∨ deadAt l caId x := by
  intro pids
  induction pids with
  | nil =>
    intro v' _ _ _ _
    exact ⟨fun pid hmem => absurd hmem (List.not_mem_nil _), fun x hx => Or.inl hx⟩
  | cons pid rest ih =>
    intro v' hpids hbase hinv hres
    rw [isAncestorOfLoop] at hres ⊢
    cases hf : findById l pid with
    | none =>
      rw [hf] at hres
      dsimp only at hres ⊢
      obtain ⟨h1, h2⟩ := ih v' (fun q hq => hpids q (List.mem_cons_of_mem _ hq))
        hbase hinv hres
      refine ⟨?_, h2⟩
      intro pid' hmem parent hfind
      rcases List.mem_cons.mp hmem with rfl | hmem'
      · rw [hf] at hfind
        cases hfind
      · exact h1 pid' hmem' parent hfind
    | some parent =>
      rw [hf] at hres
      dsimp only at hres ⊢
      have hvinv_parent : vinvStrict l caId v' parent := by
        intro x hx a hfind
        rcases hinv x hx with rfl | hgen
        · have : a = p := by
            have h1 := hfind
            rw [hp] at h1
            exact (Option.some_injective _ h1).symm
          subst this
          exact Or.inr (Relation.TransGen.single
            ⟨pid, hpids pid (List.mem_cons_self _ _), hf⟩)
        · rcases hgen a hfind with hdead | htg
          · exact Or.inl hdead
          · exact Or.inr (Relation.TransGen.tail htg
              ⟨pid, hpids pid (List.mem_cons_self _ _), hf⟩)
      cases hs : step parent v' with
      | mk b v2 =>
        rw [hs] at hres
        cases b with
        | true => cases hres
        | false =>
          dsimp only at hres ⊢
          have hsub2 : ∀ x ∈ v', x ∈ v2 := by
            intro x hx
            have hh := hpres parent v' x hx
            rw [hs] at hh
            exact hh
          obtain ⟨hdead_parent, hnew⟩ :=
            hspec pid parent v' hf hbase hvinv_parent (by rw [hs])
          have hnew2 : ∀ x ∈ v2, x ∈ v' ∨ deadAt l caId x := by
            intro x hx
            have hh := hnew x (by rw [hs]; exact hx)
            exact hh
          obtain ⟨h1, h2⟩ := ih v2 (fun q hq => hpids q (List.mem_cons_of_mem _ hq))
            (fun x hx => hsub2 x (hbase x hx))
            (by
              intro x hx
              rcases hnew2 x hx with hx' | hdead
              · exact hinv x hx'
              · exact Or.inr (fun a hfind => Or.inl (hdead a hfind)))
            hres
          refine ⟨?_, ?_⟩
          · intro pid' hmem parent' hfind
            rcases List.mem_cons.mp hmem with rfl | hmem'
            · rw [hf] at hfind
              cases hfind
              exact hdead_parent
            · exact h1 pid' hmem' parent' hfind
          · intro x hx
            rcases h2 x hx with hx2 | hdead
            · exact hnew2 x hx2
            · exact Or.inr hdead

theorem aux_complete (caId : String) (l : List Ancestor) (hacyc : ancAcyclic l) :
    ∀ (n fuel : Nat) (p : Ancestor) (v : List String),
      ancMeasure l p v ≤ n → n < fuel →
      findById l p.id = some p →
      vinvStrict l caId v p →
      (isAncestorOfAux caId l fuel p v).1 = false →
      ¬ ancReachable l caId p
      ∧ ∀ x ∈ (isAncestorOfAux caId l fuel p v).2, x ∈ v ∨ deadAt l caId x := by
  intro n
  induction n using Nat.strong_induction_on with
  | _ n ih =>
    intro fuel p v hmu hfuel hp hinv hres
    cases fuel with
    | zero => omega
    | succ f =>
      rw [isAncestorOfAux] at hres ⊢
      by_cases hv : p.id ∈ v
      · rw [if_pos hv] at hres ⊢
        have hdeadp : ¬ ancReachable l caId p := by
          rcases hinv p.id hv p hp with hdead | htg
          · exact hdead
          · exact absurd htg (hacyc p)
        exact ⟨hdeadp, fun x hx => Or.inl hx⟩
      rw [if_neg hv] at hres ⊢
      dsimp only at hres ⊢
      by_cases hinc : caId ∈ p.parentIds.getD []
      · rw [if_pos hinc] at hres
        cases hres
      rw [if_neg hinc] at hres ⊢
      have hspec : ∀ pid parent v', findById l pid = some parent →
          (∀ x ∈ p.id :: v, x ∈ v') → vinvStrict l caId v' parent →
          ((isAncestorOfAux caId l f parent v').1 = false →
            ¬ ancReachable l caId parent
            ∧ ∀ x ∈ (isAncestorOfAux caId l f parent v').2,
                x ∈ v' ∨ deadAt l caId x) := by
        intro pid parent v' hfind hsub hvinv hresf
        have hdec : ancMeasure l parent v' < ancMeasure l p v :=
          ancMeasure_decrease l p parent v v' hv hsub (findById_mem hfind)
        exact ih (ancMeasure l parent v') (by omega) f parent v' (le_refl _)
          (by omega) (findById_self hfind) hvinv hresf
      obtain ⟨hparents, hnew⟩ :=
        loop_complete caId l p (fun parent v' => isAncestorOfAux caId l f parent v')
          (p.id :: v) hp (fun p' v' => aux_visited_sub caId l f p' v')
          hspec (p.parentIds.getD []) (p.id :: v) (fun q hq => hq)
          (fun x hx => hx)
          (by
            intro x hx
            rcases List.mem_cons.mp hx with rfl | hx'
            · exact Or.inl rfl
            · exact Or.inr (fun a hfind => hinv x hx' a hfind))
          hres
      have hdeadp : ¬ ancReachable l caId p := by
        rintro ⟨b, hrtg, hb⟩
        rcases (Relation.reflTransGen_iff_eq_or_transGen.mp hrtg) with rfl | htg
        · exact hinc hb
        · rcases Relation.TransGen.head'_iff.mp htg with ⟨m, hstep, hrtg'⟩
          rcases hstep with ⟨pid, hpidmem, hfind⟩
          exact hparents pid hpidmem m hfind ⟨b, hrtg', hb⟩
      refine ⟨hdeadp, ?_⟩
      intro x hx
      rcases hnew x hx with hx1 | hdead
      · rcases List.mem_cons.mp hx1 with rfl | hx2
        · refine Or.inr ?_
          intro a hfind
          have : a = p := by
            have h1 := hfind
            rw [hp] at h1
            exact (Option.some_injective _ h1).symm
          subst this
          exact hdeadp
        · exact Or.inl hx2
      · exact Or.inr hdead

/-- C7: the ancestor walk terminates on every collection — the fuel bound
is never the deciding factor (any two fuels at or above `ancestorFuel l`
give the same result, because each Person id is entered at most once);
revisiting an already-visited Person concludes `false` for that branch
immediately; and on acyclic input `isAncestorOf(candidate, person)` returns
`true` exactly when `candidate.id` is reachable from `person` via transitive
`parentIds`, e.g. in the chain p1→p2→p3 it reports p3 an ancestor of p1. -/
theorem c7_ancestor_walk :
    (∀ (l : List Ancestor) (paId : String) (p : Ancestor) (v : List String)
        (f1 f2 : Nat), ancestorFuel l ≤ f1 → ancestorFuel l ≤ f2 →
        isAncestorOfAux paId l f1 p v = isAncestorOfAux paId l f2 p v)
    ∧ (∀ (l : List Ancestor) (paId : String) (fuel : Nat) (p : Ancestor)
        (v : List String), p.id ∈ v →
        isAncestorOfAux paId l (fuel + 1) p v = (false, v))
    ∧ (∀ (l : List Ancestor) (ca person : Ancestor),
        findById l person.id = some person → ancAcyclic l →
        (isAncestorOf ca person l = true ↔ ancReachable l ca.id person))
    ∧ isAncestorOf chainP3 chainP1 [chainP1, chainP2, chainP3] = true := by
  refine ⟨?_, ?_, ?_, by decide⟩
  · intro l paId p v f1 f2 hf1 hf2
    exact aux_fuel_stable paId l (2 * l.length + 2) f1 f2 p v
      (ancMeasure_le l p v)
      (by unfold ancestorFuel at hf1; omega)
      (by unfold ancestorFuel at hf2; omega)
  · intro l paId fuel p v hv
    rw [isAncestorOfAux, if_pos hv]
  · intro l ca person hp hacyc
    constructor
    · intro h
      exact aux_sound ca.id l (ancestorFuel l) person [] h
    · intro hreach
      by_contra hfalse
      have hfalse' : (isAncestorOfAux ca.id l (ancestorFuel l) person []).1 = false := by
        rcases hb : (isAncestorOfAux ca.id l (ancestorFuel l) person []).1 with _ | _
        · rfl
        · exact absurd (by rw [isAncestorOf]; rw [hb]) hfalse
      have := aux_complete ca.id l hacyc (2 * l.length + 2) (ancestorFuel l) person []
        (ancMeasure_le l person []) (by unfold ancestorFuel; omega) hp
        (fun x hx => absurd hx (List.not_mem_nil _)) hfalse'
      exact this.1 hreach
